import Mathlib

/-!
Shallow embedding of the graph-resolution phase of the PowersAPI extractor
(src/load.rs), together with proofs about its specification.

Modelling conventions, following the arena-by-key design the spec itself
recommends for re-implementations (spec section 9):

* Every `Rc<RefCell<T>>` record of a keyed table is identified by its table
  key; a cross reference (`ObjRef<T>`) is stored as that key.  This is
  faithful because the Rust `Keyed<T>` maps are built once (unique keys,
  no insertion or removal during resolution), so key equality coincides
  with pointer equality of the shared cells.
* `EffectGroup` cells can be shared between powers, so they live in a
  separate arena (`St.egroups`) and a power's `pp_effects` holds indices.
* `Archetype` records are never mutated during resolution; a shared
  archetype reference is an arena id (`Nat`), and Rust's `std::ptr::eq`
  on archetype references is id equality.
* `RefCell` double-borrow panics, `Option::unwrap` panics, slice-index
  panics and `process::exit` are modelled by the `Panic` error monad;
  `debug_assert!` is compiled out in release builds and is not modelled.
* Iteration over a `Keyed` table's values is modelled as a fold over the
  association list (the unspecified but fixed `HashMap` order).
-/

namespace PowersAPI

/-- Modelled from the spec: `NameKey` (src/structs/namekey.rs is not part of
the provided sources).  The spec describes a case-insensitive dotted
identifier of up to three segments; keys are represented here as already
normalized strings, so that key equality is string equality. -/
abbrev NameKey := String

/-- Modelled from the spec: the separator of Name-Key segments
("dot-separated segments"). -/
def sepDot : String := "."

/-- Modelled from the spec: the class-name sigil prepended when resolving a
villain definition's character-class name ("prefixed with a class-name
sigil"); src/load.rs line 155 shows the concrete prefix. -/
def classSigil : String := "@"

/-- Modelled from the spec: the wildcard segment token of a Name Key ("the
power segment may be a wildcard meaning all powers in this set").  The
concrete spelling of the token is opaque to the resolution logic. -/
def wildcardTok : String := "*"

/-- Modelled from the spec: `NameKey::is_wildcard` used at src/load.rs
line 125. -/
def isWildcard (s : String) : Bool := s = wildcardTok

/-- Splitting of a character list at a separator, keeping empty segments
(the semantics of splitting a dotted identifier). -/
def splitChars (sep : Char) : List Char → List (List Char)
  | [] => [[]]
  | c :: cs =>
    let r := splitChars sep cs
    if c = sep then [] :: r
    else (c :: r.headD []) :: r.tail

/-- Segments of a Name Key, as produced by `NameKey::split` at
src/load.rs line 256: the dot-separated pieces of the identifier (never an
empty list). -/
def segmentsOf (r : NameKey) : List String :=
  (splitChars ('.') r.data).map (fun l => String.mk l)

/-- Abnormal terminations of the modelled code: `RefCell` double-borrow
panics, `Option::unwrap` on `None`, out-of-bounds slice indexing, and
`process::exit`. -/
inductive Panic where
  | doubleBorrow : Panic
  | indexOOB : Panic
  | unwrapNone : Panic
  | exitCode (code : Nat) (msg : String) : Panic
deriving Repr, DecidableEq

/-- Primary/secondary marker of a power category
(src/structs/mod.rs lines 1078-1092). -/
inductive PrimarySecondary where
  | Primary : PrimarySecondary
  | Secondary : PrimarySecondary
  | None : PrimarySecondary
deriving Repr, DecidableEq

/-- Power type enum (src/structs/enums.rs lines 60-76). -/
inductive PowerType where
  | click : PowerType
  | auto : PowerType
  | toggle : PowerType
  | boost : PowerType
  | inspiration : PowerType
  | globalBoost : PowerType
deriving Repr, DecidableEq

/-- Archetype record (src/structs/mod.rs lines 125-241): only the fields the
resolution phase reads.  `id` is the arena identity standing for the
`Rc` pointer; display fields are omitted (never read by this phase). -/
structure Archetype where
  id : Nat
  pch_name : Option String := none
  pch_primary_category : Option NameKey := none
  pch_secondary_category : Option NameKey := none
  pch_epic_pool_category : Option NameKey := none
  pch_power_pool_category : Option NameKey := none
deriving Repr, DecidableEq

/-- Power redirect entry (src/structs/mod.rs lines 317-327). -/
structure PowerRedirect where
  pch_name : Option NameKey := none
  ppch_requires : List String := []
  b_show_in_info : Bool := false
deriving Repr, DecidableEq

/-- Modelled from the spec: a villain definition's power reference, "a list
of power references (category/set/power triple, where the power segment may
be a wildcard)" (src/structs/villains.rs is not part of the provided
sources; field names follow their uses in src/load.rs lines 124-150). -/
structure VillainPowerRef where
  power_category : Option NameKey := none
  power_set : Option NameKey := none
  power : Option NameKey := none
deriving Repr, DecidableEq

/-- Modelled from the spec: `VillainDef`, "an NPC/entity template — a
character-class name reference and a list of power references"
(src/structs/villains.rs is not part of the provided sources). -/
structure VillainDef where
  character_class_name : Option String := none
  powers : List VillainPowerRef := []
deriving Repr, DecidableEq

/-- Modelled from the spec: `AttribModParam_EntCreate` — "holds the
referenced entity-def Name Key, a shared reference to the resolved
VillainDef once resolved, the flattened list of power names that entity is
granted, and a `resolved` flag".  The stored `VillainDef` reference is kept
by value: villain definitions are never mutated, so a copy of the record is
observationally identical to the shared `Rc`. -/
structure AttribModParam_EntCreate where
  pch_entity_def : Option NameKey := none
  villain_def : Option VillainDef := none
  power_refs : List NameKey := []
  resolved : Bool := false
deriving Repr, DecidableEq

/-- Modelled from the spec: `AttribModParam_Power` — "holds a flattened list
of power Name-Keys and a `resolved` flag". -/
structure AttribModParam_Power where
  ppch_power_names : List NameKey := []
  resolved : Bool := false
deriving Repr, DecidableEq

/-- Attrib-mod parameter payload; `otherParam` stands for the variants
(Costume, Reward, Phase, Teleport, Behavior, SZEValue, Token, EffectFilter,
Knock) that the resolution phase ignores (the `_ => ()` arm at
src/load.rs line 236). -/
inductive AttribModParam where
  | entCreate (e : AttribModParam_EntCreate) : AttribModParam
  | power (p : AttribModParam_Power) : AttribModParam
  | otherParam : AttribModParam
deriving Repr, DecidableEq

/-- Attrib-mod template (src/structs/mod.rs lines 483-549): the resolution
phase reads only `p_params`. -/
structure AttribModTemplate where
  p_params : Option AttribModParam := none
deriving Repr, DecidableEq

/-- Effect group (src/structs/mod.rs lines 551-585): the resolution phase
reads only the top-level `pp_templates` (child groups are not visited by
`resolve_entity_defs_and_power_grants`). -/
structure EffectGroup where
  pp_templates : List AttribModTemplate := []
deriving Repr, DecidableEq

/-- Power definition (src/structs/mod.rs lines 731-1077): the fields read or
written by the resolution phase and the final fixups.  `pp_effects` holds
indices into the effect-group arena; `archetypes` holds archetype ids. -/
structure BasePower where
  pch_name : Option String := none
  pch_full_name : Option NameKey := none
  e_type : PowerType := PowerType.click
  b_auto_issue : Bool := false
  b_free : Bool := false
  i_max_boosts : Int := 0
  i_force_level_bought : Int := 0
  pe_boosts_allowed : List Int := []
  pp_effects : List Nat := []
  pp_redirect : List PowerRedirect := []
  include_in_output : Bool := false
  archetypes : List Nat := []
  redirects_resolved : Bool := false
deriving Repr, DecidableEq

/-- Power set (src/structs/mod.rs lines 243-315): the fields the resolution
phase uses.  `pp_powers` holds keys into the power table. -/
structure BasePowerSet where
  pch_name : Option String := none
  pch_full_name : Option NameKey := none
  pp_powers : List NameKey := []
  pp_power_names : List NameKey := []
  include_in_output : Bool := false
deriving Repr, DecidableEq

/-- Power category (src/structs/mod.rs lines 1093-1131).  `pp_power_sets`
holds keys into the power-set table; `archetypes` holds archetype ids. -/
structure PowerCategory where
  pch_name : Option NameKey := none
  ppch_power_set_names : List NameKey := []
  pp_power_sets : List NameKey := []
  archetypes : List Nat := []
  pri_sec : PrimarySecondary := PrimarySecondary.None
  include_in_output : Bool := false
  top_level : Bool := false
deriving Repr, DecidableEq

/-- Association-list form of `Keyed<T>` (src/structs/mod.rs lines 53-108):
lookup returns the first entry with the given key, mirroring the unique-key
`HashMap`. -/
def lookupK {α : Type} : List (NameKey × α) → NameKey → Option α
  | [], _ => none
  | (k', v) :: rest, k => if k' = k then some v else lookupK rest k

/-- Mutation of the record stored under a key, modelling a write through the
shared cell returned by `Keyed::get`. -/
def updateK {α : Type} (l : List (NameKey × α)) (k : NameKey) (f : α → α) :
    List (NameKey × α) :=
  l.map (fun kv => if kv.1 = k then (kv.1, f kv.2) else kv)

/-- Whole object graph operated on by the resolution phase: the keyed tables
produced by the binary readers plus the effect-group arena.  `villains` and
`villainArchetypes` are only read. -/
structure St where
  powerCats : List (NameKey × PowerCategory) := []
  powerSets : List (NameKey × BasePowerSet) := []
  powers : List (NameKey × BasePower) := []
  egroups : List EffectGroup := []
  villains : List (NameKey × VillainDef) := []
  villainArchetypes : List (NameKey × Nat) := []
deriving Repr, DecidableEq

/-- Error-propagating left fold used to model the sequential loops of the
source. -/
def foldE {σ α : Type} (f : σ → α → Except Panic σ) : σ → List α → Except Panic σ
  | s, [] => Except.ok s
  | s, a :: as =>
    match f s a with
    | Except.error e => Except.error e
    | Except.ok s' => foldE f s' as

/-- Archetype merge performed on a marked power: append each inheriting
archetype unless a pointer-identical one is already present
(src/load.rs lines 276-284). -/
def mergeArchetypes (old new : List Nat) : List Nat :=
  new.foldl (fun acc a => if a ∈ acc then acc else acc ++ [a]) old

/-- Update applied to a marked power: set `include_in_output` and merge the
inheriting archetypes (src/load.rs lines 272-285). -/
def inclArch (archs : List Nat) (q : BasePower) : BasePower :=
  { q with include_in_output := true,
           archetypes := mergeArchetypes q.archetypes archs }

/-- Update applied to a marked category (src/load.rs line 264). -/
def inclCat (c : PowerCategory) : PowerCategory :=
  { c with include_in_output := true }

/-- Update applied to a marked power set (src/load.rs line 269). -/
def inclSet (s : BasePowerSet) : BasePowerSet :=
  { s with include_in_output := true }

/-- Embedding of `mark_power_for_inclusion` (src/load.rs lines 248-286).
`borrowed` is the key of the power cell mutably (or shared-) borrowed by the
caller: looking that power up and re-borrowing it panics.  In a release
build the `debug_assert!` on three segments is compiled out, but indexing
`name_parts[1]` on a one-segment reference still panics; since a panic
aborts the whole process, the category write Rust performs just before that
indexing is unobservable and the embedding may check the index first. -/
def markPowerForInclusion (borrowed : Option NameKey) (power_ref : NameKey)
    (archetypes : List Nat) (st : St) : Except Panic St :=
  match (segmentsOf power_ref)[1]? with
  | none => Except.error Panic.indexOOB
  | some p1 =>
    let p0 := (segmentsOf power_ref).headD ("")
    let st2 : St := { st with
      powerCats := updateK st.powerCats p0 inclCat,
      powerSets := updateK st.powerSets (p0 ++ sepDot ++ p1) inclSet }
    match lookupK st2.powers power_ref with
    | none => Except.ok st2
    | some _ =>
      if borrowed = some power_ref then Except.error Panic.doubleBorrow
      else Except.ok { st2 with
        powers := updateK st2.powers power_ref (inclArch archetypes) }

/-- Embedding of `mark_powers_in_power_param` (src/load.rs lines 168-183).
`currentKey` is the table key of the power whose cell the caller holds
borrowed; `current_power_name` is that power's `pch_full_name`, which is
what the self-reference guard compares against. -/
def markPowersInPowerParam (power_param : AttribModParam_Power)
    (current_power_name : NameKey) (currentKey : NameKey)
    (archetypes : List Nat) (st : St) : Except Panic St :=
  foldE (fun s n =>
      if n = current_power_name then Except.ok s
      else markPowerForInclusion (some currentKey) n archetypes s)
    st power_param.ppch_power_names

/-- Accumulation step of the power-reference collection loop of
`copy_powers_to_entcreate` (src/load.rs lines 124-151): wildcard references
append every declared power name of the named set, exact references append
the found power's full name; the `unwrap`s on the reference's fields panic
when absent. -/
def collectRefsStep (st : St) (acc : List NameKey) (pr : VillainPowerRef) :
    Except Panic (List NameKey) :=
  if (match pr.power with
      | some s => isWildcard s
      | none => false) then
    match pr.power_category, pr.power_set with
    | some c, some s =>
      match lookupK st.powerSets (c ++ sepDot ++ s) with
      | some pset => Except.ok (acc ++ pset.pp_power_names)
      | none => Except.ok acc
    | _, _ => Except.error Panic.unwrapNone
  else
    match pr.power_category, pr.power_set, pr.power with
    | some c, some s, some p =>
      match lookupK st.powers (c ++ sepDot ++ s ++ sepDot ++ p) with
      | some pw =>
        match pw.pch_full_name with
        | some fn => Except.ok (acc ++ [fn])
        | none => Except.ok acc
      | none => Except.ok acc
    | _, _, _ => Except.error Panic.unwrapNone

/-- Resolution of the villain definition's character class against the
villain-archetype table (src/load.rs lines 152-159): zero or one archetype. -/
def entArchs (st : St) (vd : VillainDef) : List Nat :=
  match vd.character_class_name with
  | some cn =>
    match lookupK st.villainArchetypes (classSigil ++ cn) with
    | some a => [a]
    | none => []
  | none => []

/-- Embedding of `copy_powers_to_entcreate` (src/load.rs lines 114-165).
`currentKey` is the key of the power whose cell the caller of
`resolve_entity_defs_and_power_grants` holds borrowed. -/
def copyPowersToEntcreate (currentKey : NameKey)
    (entcreate : AttribModParam_EntCreate) (st : St) :
    Except Panic (AttribModParam_EntCreate × St) :=
  match entcreate.villain_def with
  | none => Except.ok (entcreate, st)
  | some vd =>
    match foldE (collectRefsStep st) entcreate.power_refs vd.powers with
    | Except.error er => Except.error er
    | Except.ok allRefs =>
      let archs := entArchs st vd
      match foldE (fun s r => markPowerForInclusion (some currentKey) r archs s)
          st allRefs with
      | Except.error er => Except.error er
      | Except.ok st' => Except.ok ({ entcreate with power_refs := allRefs }, st')

/-- Processing of one attrib-mod parameter inside
`resolve_entity_defs_and_power_grants` (src/load.rs lines 203-237).
Returns the updated parameter, state, and the number of latches flipped
(0 or 1). -/
def processParam (k : NameKey) (fullName : Option NameKey) (archs : List Nat)
    (st : St) : AttribModParam → Except Panic (AttribModParam × St × Nat)
  | AttribModParam.entCreate e =>
    if e.resolved then Except.ok (AttribModParam.entCreate e, st, 0)
    else
      match e.pch_entity_def with
      | some edn =>
        match lookupK st.villains edn with
        | some vd =>
          match copyPowersToEntcreate k { e with villain_def := some vd } st with
          | Except.error er => Except.error er
          | Except.ok (e', st') =>
            Except.ok (AttribModParam.entCreate { e' with resolved := true }, st', 1)
        | none => Except.ok (AttribModParam.entCreate { e with resolved := true }, st, 1)
      | none => Except.ok (AttribModParam.entCreate { e with resolved := true }, st, 1)
  | AttribModParam.power p =>
    if p.resolved then Except.ok (AttribModParam.power p, st, 0)
    else
      match fullName with
      | none => Except.error Panic.unwrapNone
      | some fn =>
        match markPowersInPowerParam p fn k archs st with
        | Except.error er => Except.error er
        | Except.ok st' =>
          Except.ok (AttribModParam.power { p with resolved := true }, st', 1)
  | AttribModParam.otherParam => Except.ok (AttribModParam.otherParam, st, 0)

/-- Sequential processing of an effect group's templates
(src/load.rs lines 202-238), rebuilding the template list. -/
def processTemplates (k : NameKey) (fullName : Option NameKey) (archs : List Nat) :
    List AttribModTemplate × St × Nat → List AttribModTemplate →
    Except Panic (List AttribModTemplate × St × Nat)
  | acc, [] => Except.ok acc
  | (ts, st, c), t :: rest =>
    match t.p_params with
    | none => processTemplates k fullName archs (ts ++ [t], st, c) rest
    | some pm =>
      match processParam k fullName archs st pm with
      | Except.error er => Except.error er
      | Except.ok (pm', st', n) =>
        processTemplates k fullName archs
          (ts ++ [{ t with p_params := some pm' }], st', c + n) rest

/-- Processing of one effect group of the currently borrowed power
(src/load.rs lines 197-240): the group's cell is mutably borrowed, its
templates processed, and the updated group written back to the arena. -/
def processEgroup (k : NameKey) (fullName : Option NameKey) (archs : List Nat)
    (acc : St × Nat) (gi : Nat) : Except Panic (St × Nat) :=
  match acc.1.egroups[gi]? with
  | none => Except.ok acc
  | some g =>
    match processTemplates k fullName archs ([], acc.1, 0) g.pp_templates with
    | Except.error er => Except.error er
    | Except.ok (ts', st', c') =>
      Except.ok ({ st' with
        egroups := st'.egroups.set gi { g with pp_templates := ts' } }, acc.2 + c')

/-- Body of the power loop of `resolve_entity_defs_and_power_grants`
(src/load.rs lines 194-241): the power's cell is borrowed (shared) and its
effect groups processed when the power is included. -/
def resolveStepEnt (acc : St × Nat) (k : NameKey) : Except Panic (St × Nat) :=
  match lookupK acc.1.powers k with
  | none => Except.ok acc
  | some p =>
    if p.include_in_output then
      foldE (processEgroup k p.pch_full_name p.archetypes) acc p.pp_effects
    else Except.ok acc

/-- Embedding of `resolve_entity_defs_and_power_grants`
(src/load.rs lines 186-244). -/
def resolve_entity_defs_and_power_grants (st : St) : Except Panic (St × Nat) :=
  foldE resolveStepEnt (st, 0) (st.powers.map Prod.fst)

/-- Latch write of `resolve_power_redirects` (src/load.rs line 312). -/
def rrSet (q : BasePower) : BasePower := { q with redirects_resolved := true }

/-- Marking of one redirect entry (src/load.rs lines 301-311). -/
def markRedirect (k : NameKey) (archs : List Nat) (s : St) (rd : PowerRedirect) :
    Except Panic St :=
  match rd.pch_name with
  | some n => markPowerForInclusion (some k) n archs s
  | none => Except.ok s

/-- Body of the power loop of `resolve_power_redirects`
(src/load.rs lines 298-315): the power's cell is mutably borrowed for the
whole body. -/
def resolveStepRedir (acc : St × Nat) (k : NameKey) : Except Panic (St × Nat) :=
  match lookupK acc.1.powers k with
  | none => Except.ok acc
  | some p =>
    if p.include_in_output && !p.redirects_resolved then
      match foldE (markRedirect k p.archetypes) acc.1 p.pp_redirect with
      | Except.error er => Except.error er
      | Except.ok st' =>
        Except.ok ({ st' with powers := updateK st'.powers k rrSet }, acc.2 + 1)
    else Except.ok acc

/-- Embedding of `resolve_power_redirects` (src/load.rs lines 292-317). -/
def resolve_power_redirects (st : St) : Except Panic (St × Nat) :=
  foldE resolveStepRedir (st, 0) (st.powers.map Prod.fst)

/-- One iteration of the fixed-point driver loop
(src/load.rs lines 472-486). -/
def onePass (st : St) : Except Panic (St × Nat) :=
  match resolve_entity_defs_and_power_grants st with
  | Except.error er => Except.error er
  | Except.ok (st1, c1) =>
    match resolve_power_redirects st1 with
    | Except.error er => Except.error er
    | Except.ok (st2, c2) => Except.ok (st2, c1 + c2)

/-- Fuelled embedding of the fixed-point driver loop: `none` means the fuel
ran out before the loop finished; `some` carries the loop's outcome. -/
def loopFuel : Nat → St → Option (Except Panic St)
  | 0, _ => none
  | fuel + 1, st =>
    match onePass st with
    | Except.error e => some (Except.error e)
    | Except.ok (st', c) =>
      if c = 0 then some (Except.ok st') else loopFuel fuel st'

/-- Number 1 or 0 of unresolved latches carried by a parameter. -/
def paramUnresolved : AttribModParam → Nat
  | AttribModParam.entCreate e => if e.resolved then 0 else 1
  | AttribModParam.power p => if p.resolved then 0 else 1
  | AttribModParam.otherParam => 0

/-- Unresolved latches of a template. -/
def tmplUnresolved (t : AttribModTemplate) : Nat :=
  match t.p_params with
  | none => 0
  | some pm => paramUnresolved pm

/-- Unresolved latches of an effect group. -/
def egUnresolved (g : EffectGroup) : Nat := (g.pp_templates.map tmplUnresolved).sum

/-- Unresolved parameter latches of the whole arena. -/
def muE (st : St) : Nat := (st.egroups.map egUnresolved).sum

/-- Number of powers whose `redirects_resolved` latch is still unset. -/
def muR (st : St) : Nat :=
  st.powers.countP (fun kp => !kp.2.redirects_resolved)

/-- Total number of unset one-way latches: the termination measure of the
fixed-point driver loop. -/
def latchMeasure (st : St) : Nat := muE st + muR st

/-- Update applied by the default-inclusion cascade to each power of a
top-level category's sets (src/load.rs lines 454-456). -/
def cascPower (ats : List Nat) (q : BasePower) : BasePower :=
  { q with include_in_output := true, archetypes := ats }

/-- Test used by the cascade to recompute a set's flag
(src/load.rs lines 458-461). -/
def anyPowerIncluded (st : St) (ks : List NameKey) : Bool :=
  ks.any (fun k =>
    match lookupK st.powers k with
    | some q => q.include_in_output
    | none => false)

/-- Test used by the cascade to recompute a category's flag
(src/load.rs lines 463-466). -/
def anySetIncluded (st : St) (ks : List NameKey) : Bool :=
  ks.any (fun k =>
    match lookupK st.powerSets k with
    | some q => q.include_in_output
    | none => false)

/-- Inner loop of the cascade over one set's powers
(src/load.rs lines 451-457): include each power unconditionally and
overwrite its archetype list with the category's. -/
def cascMarkPowers (ats : List Nat) : St → List NameKey → St
  | s, [] => s
  | s, pk :: pks =>
    cascMarkPowers ats
      { s with powers := updateK s.powers pk (cascPower ats) } pks

/-- Processing of one linked set by the cascade
(src/load.rs lines 450-462): mark all its powers, then recompute the
set's flag over the freshly marked powers. -/
def cascSetStep (ats : List Nat) (s : St) (sk : NameKey) : St :=
  match lookupK s.powerSets sk with
  | none => s
  | some ps =>
    let s2 := cascMarkPowers ats s ps.pp_powers
    { s2 with powerSets := updateK s2.powerSets sk (fun q =>
        { q with include_in_output := anyPowerIncluded s2 q.pp_powers }) }

/-- Processing of one category by the default-inclusion cascade
(src/load.rs lines 442-469): for a top-level category, include every power
of its sets unconditionally and overwrite its archetype list, recompute
each set's flag, then recompute the category's own flag and demote
`top_level` accordingly. -/
def cascadeStep (st : St) (ck : NameKey) : St :=
  match lookupK st.powerCats ck with
  | none => st
  | some c =>
    if c.top_level then
      let st1 := c.pp_power_sets.foldl (cascSetStep c.archetypes) st
      { st1 with powerCats := updateK st1.powerCats ck (fun q =>
          let inc := anySetIncluded st1 q.pp_power_sets
          { q with include_in_output := inc, top_level := inc }) }
    else st

/-- Embedding of the default-inclusion cascade over the collected category
list (src/load.rs lines 442-469). -/
def cascadeIncludeTopLevel (cks : List NameKey) (st : St) : St :=
  cks.foldl cascadeStep st

/-- Business rules applied to one power by `fix_data_in_power_hierarchy`
(src/load.rs lines 352-375); the power's `pch_name` is unwrapped first. -/
def fixPowerRules (catName : String) (pw : BasePower) : Except Panic BasePower :=
  match pw.pch_name with
  | none => Except.error Panic.unwrapNone
  | some pname =>
    let pw1 :=
      if catName = ("Prestige") then
        { pw with b_free := true, i_force_level_bought := 0 }
      else if catName = ("Inherent") ∨ pname = ("Inherent") then
        { pw with b_free := true, b_auto_issue := true }
      else if catName = ("Incarnate") then
        { pw with b_free := true }
      else pw
    if catName = ("Temporary_Powers") then
      let pw2 := { pw1 with b_free := true, i_max_boosts := 0 }
      match pw1.e_type with
      | PowerType.boost => Except.ok pw2
      | PowerType.globalBoost => Except.ok pw2
      | _ => Except.ok { pw2 with pe_boosts_allowed := [] }
    else Except.ok pw1

/-- Processing of one category by `fix_data_in_power_hierarchy`
(src/load.rs lines 338-380). -/
def fixCatStep (st : St) (ck : NameKey) : Except Panic St :=
  match lookupK st.powerCats ck with
  | none => Except.ok st
  | some c =>
    if c.top_level then
      match c.pch_name with
      | none => Except.error Panic.unwrapNone
      | some cname =>
        foldE (fun s sk =>
          match lookupK s.powerSets sk with
          | none => Except.ok s
          | some ps =>
            foldE (fun s' pk =>
              match lookupK s'.powers pk with
              | none => Except.ok s'
              | some pw =>
                match fixPowerRules cname pw with
                | Except.error er => Except.error er
                | Except.ok pw' =>
                  Except.ok { s' with powers := updateK s'.powers pk (fun _ => pw') })
              s ps.pp_powers)
          st c.pp_power_sets
    else Except.ok st

/-- Embedding of `fix_data_in_power_hierarchy` (src/load.rs lines 338-380). -/
def fix_data_in_power_hierarchy (cks : List NameKey) (st : St) : Except Panic St :=
  foldE fixCatStep st cks

/-- Matching of one archetype against one category slot, including the
diagnostic `println!` that unwraps both names (src/load.rs lines 54-98):
push a shared reference to the archetype and optionally set `pri_sec`. -/
def matchOne (cats : List (NameKey × PowerCategory)) (a : Archetype)
    (slot : Option NameKey) (ps : Option PrimarySecondary) :
    Except Panic (List (NameKey × PowerCategory)) :=
  match slot with
  | none => Except.ok cats
  | some n =>
    match lookupK cats n with
    | none => Except.ok cats
    | some c =>
      match a.pch_name, c.pch_name with
      | some _, some _ =>
        Except.ok (updateK cats n (fun q =>
          { q with archetypes := q.archetypes ++ [a.id],
                   pri_sec := ps.getD q.pri_sec }))
      | _, _ => Except.error Panic.unwrapNone

/-- Matching of one archetype: the four slots in source order, then every
configured global category (src/load.rs lines 54-108). -/
def matchArchetypeStep (globals : List NameKey)
    (cats : List (NameKey × PowerCategory)) (a : Archetype) :
    Except Panic (List (NameKey × PowerCategory)) :=
  match matchOne cats a a.pch_primary_category (some PrimarySecondary.Primary) with
  | Except.error er => Except.error er
  | Except.ok c1 =>
    match matchOne c1 a a.pch_secondary_category (some PrimarySecondary.Secondary) with
    | Except.error er => Except.error er
    | Except.ok c2 =>
      match matchOne c2 a a.pch_epic_pool_category none with
      | Except.error er => Except.error er
      | Except.ok c3 =>
        match matchOne c3 a a.pch_power_pool_category none with
        | Except.error er => Except.error er
        | Except.ok c4 =>
          foldE (fun cs g => matchOne cs a (some g) none) c4 globals

/-- Embedding of `match_archetypes_to_power_categories`
(src/load.rs lines 49-110). -/
def match_archetypes_to_power_categories (ats : List Archetype)
    (globals : List NameKey) (cats : List (NameKey × PowerCategory)) :
    Except Panic (List (NameKey × PowerCategory)) :=
  foldE (matchArchetypeStep globals) cats ats

/-- Body of the allow-list marking loop of `read_powercats_bin`
(src/load.rs lines 567-578): unwrap the category's name, mark `top_level`
when it matches an allow-list entry. -/
def allowStep (configCats : List NameKey)
    (acc : List (NameKey × PowerCategory)) (kv : NameKey × PowerCategory) :
    Except Panic (List (NameKey × PowerCategory)) :=
  match (kv.2 : PowerCategory).pch_name with
  | none => Except.error Panic.unwrapNone
  | some n =>
    if configCats.any (fun f => f = n) then
      Except.ok (acc ++ [(kv.1, { kv.2 with top_level := true })])
    else Except.ok (acc ++ [kv])

/-- Embedding of the allow-list filtering and fatal-exit check of
`read_powercats_bin` (src/load.rs lines 566-592), applied to the freshly
parsed category table. -/
def read_powercats_bin_filter (configCats : List NameKey)
    (cats : List (NameKey × PowerCategory)) :
    Except Panic (List (NameKey × PowerCategory)) :=
  if configCats.length = 0 then
    Except.ok (cats.map (fun kv => (kv.1, { kv.2 with top_level := true })))
  else
    match foldE (allowStep configCats)
      ([] : List (NameKey × PowerCategory)) cats with
    | Except.error er => Except.error er
    | Except.ok cats' =>
      if (cats'.filter (fun kv => kv.2.top_level)).length = 0 then
        Except.error (Panic.exitCode 1
          ("No power categories to work on. Did you filter them all?"))
      else Except.ok cats'

/-! Basic facts about the record updates. -/

@[simp] theorem inclArch_include (a : List Nat) (q : BasePower) :
    (inclArch a q).include_in_output = true := rfl

@[simp] theorem inclArch_rr (a : List Nat) (q : BasePower) :
    (inclArch a q).redirects_resolved = q.redirects_resolved := rfl

@[simp] theorem inclArch_full_name (a : List Nat) (q : BasePower) :
    (inclArch a q).pch_full_name = q.pch_full_name := rfl

@[simp] theorem inclArch_effects (a : List Nat) (q : BasePower) :
    (inclArch a q).pp_effects = q.pp_effects := rfl

@[simp] theorem inclArch_redirect (a : List Nat) (q : BasePower) :
    (inclArch a q).pp_redirect = q.pp_redirect := rfl

@[simp] theorem inclArch_archetypes (a : List Nat) (q : BasePower) :
    (inclArch a q).archetypes = mergeArchetypes q.archetypes a := rfl

@[simp] theorem rrSet_include (q : BasePower) :
    (rrSet q).include_in_output = q.include_in_output := rfl

@[simp] theorem rrSet_rr (q : BasePower) : (rrSet q).redirects_resolved = true := rfl

@[simp] theorem cascPower_include (a : List Nat) (q : BasePower) :
    (cascPower a q).include_in_output = true := rfl

@[simp] theorem inclCat_include (c : PowerCategory) :
    (inclCat c).include_in_output = true := rfl

@[simp] theorem inclSet_include (s : BasePowerSet) :
    (inclSet s).include_in_output = true := rfl

/-! Association-list lemmas. -/

@[simp] theorem lookupK_nil {α : Type} (k : NameKey) :
    lookupK ([] : List (NameKey × α)) k = none := rfl

theorem lookupK_cons {α : Type} (k1 k : NameKey) (v : α) (l : List (NameKey × α)) :
    lookupK ((k1, v) :: l) k = if k1 = k then some v else lookupK l k := rfl

theorem updateK_cons {α : Type} (k1 k : NameKey) (v : α) (l : List (NameKey × α))
    (f : α → α) :
    updateK ((k1, v) :: l) k f =
      (if k1 = k then (k1, f v) else (k1, v)) :: updateK l k f := rfl

theorem lookupK_updateK {α : Type} (l : List (NameKey × α)) (k k' : NameKey)
    (f : α → α) :
    lookupK (updateK l k f) k' =
      if k' = k then (lookupK l k').map f else lookupK l k' := by
  induction l with
  | nil => simp [updateK]
  | cons kv rest ih =>
    obtain ⟨k1, v⟩ := kv
    rw [updateK_cons]
    by_cases h1 : k1 = k
    · rw [if_pos h1]
      by_cases h2 : k1 = k'
      · rw [lookupK_cons, if_pos h2, lookupK_cons, if_pos h2]
        rw [if_pos (h2 ▸ h1 : k' = k)]
        rfl
      · rw [lookupK_cons, if_neg h2, lookupK_cons, if_neg h2, ih]
    · rw [if_neg h1]
      by_cases h2 : k1 = k'
      · rw [lookupK_cons, if_pos h2, lookupK_cons, if_pos h2]
        rw [if_neg (fun hk => h1 (h2.trans hk))]
      · rw [lookupK_cons, if_neg h2, lookupK_cons, if_neg h2, ih]

theorem updateK_map_fst {α : Type} (l : List (NameKey × α)) (k : NameKey)
    (f : α → α) : (updateK l k f).map Prod.fst = l.map Prod.fst := by
  unfold updateK
  rw [List.map_map]
  apply List.map_congr_left
  intro kv _
  by_cases h : kv.1 = k <;> simp [h]

theorem lookupK_isSome_iff {α : Type} (l : List (NameKey × α)) (k : NameKey) :
    (lookupK l k).isSome ↔ k ∈ l.map Prod.fst := by
  induction l with
  | nil => simp
  | cons kv rest ih =>
    obtain ⟨k1, v⟩ := kv
    by_cases h : k1 = k
    · subst h; simp [lookupK]
    · simp [lookupK, if_neg h, ih, Ne.symm h]

theorem countP_updateK_eq {α : Type} (l : List (NameKey × α)) (k : NameKey)
    (f : α → α) (p : NameKey × α → Bool)
    (h : ∀ k' v, p (k', f v) = p (k', v)) :
    (updateK l k f).countP p = l.countP p := by
  induction l with
  | nil => rfl
  | cons kv rest ih =>
    obtain ⟨k1, v⟩ := kv
    rw [updateK_cons]
    by_cases hk : k1 = k
    · subst hk
      rw [if_pos rfl, List.countP_cons, List.countP_cons, ih, h k1 v]
    · rw [if_neg hk, List.countP_cons, List.countP_cons, ih]

theorem countP_updateK_le {α : Type} (l : List (NameKey × α)) (k : NameKey)
    (f : α → α) (p : NameKey × α → Bool)
    (h : ∀ v, p (k, f v) = false) :
    (updateK l k f).countP p ≤ l.countP p := by
  unfold updateK
  rw [List.countP_map]
  apply List.countP_mono_left
  intro kv _ hp
  by_cases hk : kv.1 = k
  · exfalso
    rw [Function.comp, if_pos hk, hk] at hp
    rw [h kv.2] at hp
    exact Bool.false_ne_true hp
  · rwa [Function.comp, if_neg hk] at hp

theorem countP_updateK_lt {α : Type} (l : List (NameKey × α)) (k : NameKey)
    (f : α → α) (p : NameKey × α → Bool) (v : α)
    (hl : lookupK l k = some v) (hv : p (k, v) = true)
    (h : ∀ v', p (k, f v') = false) :
    (updateK l k f).countP p < l.countP p := by
  induction l with
  | nil => simp [lookupK] at hl
  | cons kv rest ih =>
    obtain ⟨k1, v1⟩ := kv
    rw [updateK_cons]
    by_cases hk : k1 = k
    · subst hk
      rw [if_pos rfl]
      rw [lookupK_cons, if_pos rfl] at hl
      injection hl with hv1
      subst hv1
      rw [List.countP_cons, List.countP_cons, h v1, hv]
      have := countP_updateK_le rest k1 f p h
      simp only [Bool.false_eq_true, if_false, if_true]
      omega
    · rw [if_neg hk]
      rw [lookupK_cons, if_neg hk] at hl
      have := ih hl
      rw [List.countP_cons, List.countP_cons]
      omega

/-! List lemmas used for the effect-group arena. -/

theorem list_set_self {α : Type} (l : List α) :
    ∀ (i : Nat) (a : α), l[i]? = some a → l.set i a = l := by
  induction l with
  | nil => intro i a h; simp at h
  | cons x xs ih =>
    intro i a h
    cases i with
    | zero => simp_all [List.set]
    | succ n => simp at h; simp [List.set, ih n a h]

theorem sum_map_set {α : Type} (f : α → Nat) (l : List α) :
    ∀ (i : Nat) (a b : α), l[i]? = some a →
    ((l.set i b).map f).sum + f a = (l.map f).sum + f b := by
  induction l with
  | nil => intro i a b h; simp at h
  | cons x xs ih =>
    intro i a b h
    cases i with
    | zero =>
      simp at h
      subst h
      simp [List.set]
      omega
    | succ n =>
      simp at h
      have := ih n a b h
      simp only [List.set_cons_succ, List.map_cons, List.sum_cons, List.map_set] at this ⊢
      omega

/-! Fold lemmas. -/

@[simp] theorem foldE_nil {σ α : Type} (f : σ → α → Except Panic σ) (s : σ) :
    foldE f s [] = Except.ok s := rfl

theorem foldE_cons_ok {σ α : Type} (f : σ → α → Except Panic σ) (s s' : σ)
    (a : α) (as : List α) (h : foldE f s (a :: as) = Except.ok s') :
    ∃ s1, f s a = Except.ok s1 ∧ foldE f s1 as = Except.ok s' := by
  unfold foldE at h
  cases hfa : f s a with
  | error e => rw [hfa] at h; exact absurd h (by simp)
  | ok s1 => rw [hfa] at h; exact ⟨s1, rfl, h⟩

theorem foldE_rel {σ α : Type} (f : σ → α → Except Panic σ) (R : σ → σ → Prop)
    (hrefl : ∀ s, R s s) (htrans : ∀ a b c, R a b → R b c → R a c)
    (hstep : ∀ s x s', f s x = Except.ok s' → R s s') :
    ∀ (l : List α) (s s' : σ), foldE f s l = Except.ok s' → R s s' := by
  intro l
  induction l with
  | nil =>
    intro s s' h
    simp only [foldE_nil] at h
    injection h with h
    exact h ▸ hrefl s
  | cons a as ih =>
    intro s s' h
    obtain ⟨s1, h1, h2⟩ := foldE_cons_ok f s s' a as h
    exact htrans _ _ _ (hstep s a s1 h1) (ih s1 s' h2)

/-! Shape of a successful `mark_power_for_inclusion`. -/

theorem mark_ok_shape {b : Option NameKey} {r : NameKey} {a : List Nat}
    {st st' : St} (h : markPowerForInclusion b r a st = Except.ok st') :
    ∃ p1, (segmentsOf r)[1]? = some p1 ∧
      st'.powerCats =
        updateK st.powerCats ((segmentsOf r).headD ("")) inclCat ∧
      st'.powerSets =
        updateK st.powerSets
          (((segmentsOf r).headD ("")) ++ sepDot ++ p1) inclSet ∧
      (st'.powers = st.powers ∨
        st'.powers = updateK st.powers r (inclArch a)) ∧
      st'.egroups = st.egroups ∧ st'.villains = st.villains ∧
      st'.villainArchetypes = st.villainArchetypes := by
  unfold markPowerForInclusion at h
  cases hp1 : (segmentsOf r)[1]? with
  | none => rw [hp1] at h; exact absurd h (by simp)
  | some p1 =>
    rw [hp1] at h
    simp only at h
    cases hlk : lookupK st.powers r with
    | none =>
      rw [hlk] at h
      injection h with h
      subst h
      exact ⟨p1, rfl, rfl, rfl, Or.inl rfl, rfl, rfl, rfl⟩
    | some pw =>
      rw [hlk] at h
      by_cases hb : b = some r
      · rw [if_pos hb] at h; exact absurd h (by simp)
      · rw [if_neg hb] at h
        injection h with h
        subst h
        exact ⟨p1, rfl, rfl, rfl, Or.inr rfl, rfl, rfl, rfl⟩

/-! Projection and frame lemmas: which parts of the state each operation can
touch.  `powsRR` records, per power-table entry, the key and the
`redirects_resolved` latch; marking operations preserve it entry-wise. -/

def powsRR (st : St) : List (NameKey × Bool) :=
  st.powers.map (fun kp => (kp.1, kp.2.redirects_resolved))

theorem mapProj_updateK {α β : Type} (proj : α → β) (l : List (NameKey × α))
    (k : NameKey) (f : α → α) (h : ∀ v, proj (f v) = proj v) :
    (updateK l k f).map (fun kv => (kv.1, proj kv.2)) =
      l.map (fun kv => (kv.1, proj kv.2)) := by
  induction l with
  | nil => rfl
  | cons kv rest ih =>
    obtain ⟨k1, v⟩ := kv
    rw [updateK_cons]
    by_cases hk : k1 = k
    · rw [if_pos hk]
      simp only [List.map_cons, ih, h v]
    · rw [if_neg hk]
      simp only [List.map_cons, ih]

theorem lookupK_map_proj {α β : Type} (proj : α → β) (l : List (NameKey × α))
    (k : NameKey) :
    lookupK (l.map (fun kv => (kv.1, proj kv.2))) k = (lookupK l k).map proj := by
  induction l with
  | nil => rfl
  | cons kv rest ih =>
    obtain ⟨k1, v⟩ := kv
    simp only [List.map_cons, lookupK_cons]
    by_cases hk : k1 = k
    · rw [if_pos hk, if_pos hk]; rfl
    · rw [if_neg hk, if_neg hk, ih]

theorem muR_eq_countP_powsRR (st : St) :
    muR st = (powsRR st).countP (fun kb => !kb.2) := by
  unfold muR powsRR
  rw [List.countP_map]
  rfl

theorem muR_eq_of_powsRR {st st' : St} (h : powsRR st' = powsRR st) :
    muR st' = muR st := by
  rw [muR_eq_countP_powsRR, muR_eq_countP_powsRR, h]

theorem keys_eq_of_powsRR {st st' : St} (h : powsRR st' = powsRR st) :
    st'.powers.map Prod.fst = st.powers.map Prod.fst := by
  have h1 : (powsRR st').map Prod.fst = (powsRR st).map Prod.fst := by rw [h]
  unfold powsRR at h1
  rw [List.map_map, List.map_map] at h1
  exact h1

/-- Frame of a marking operation: the power-table latches (entry-wise), the
effect-group arena and the read-only villain tables are untouched. -/
def LFrame (st st' : St) : Prop :=
  powsRR st' = powsRR st ∧ st'.egroups = st.egroups ∧
  st'.villains = st.villains ∧ st'.villainArchetypes = st.villainArchetypes

theorem lframe_refl (st : St) : LFrame st st := ⟨rfl, rfl, rfl, rfl⟩

theorem lframe_trans {a b c : St} (h1 : LFrame a b) (h2 : LFrame b c) :
    LFrame a c :=
  ⟨h2.1.trans h1.1, h2.2.1.trans h1.2.1, h2.2.2.1.trans h1.2.2.1,
   h2.2.2.2.trans h1.2.2.2⟩

theorem mark_lframe {b : Option NameKey} {r : NameKey} {a : List Nat}
    {st st' : St} (h : markPowerForInclusion b r a st = Except.ok st') :
    LFrame st st' := by
  obtain ⟨p1, _, _, _, hpw, heg, hvil, hva⟩ := mark_ok_shape h
  refine ⟨?_, heg, hvil, hva⟩
  cases hpw with
  | inl hsame => unfold powsRR; rw [hsame]
  | inr hupd =>
    unfold powsRR
    rw [hupd]
    exact mapProj_updateK _ _ _ _ (fun v => rfl)

theorem foldE_lframe {α : Type} (f : St → α → Except Panic St)
    (hstep : ∀ s x s', f s x = Except.ok s' → LFrame s s') (l : List α)
    (s s' : St) (h : foldE f s l = Except.ok s') : LFrame s s' :=
  foldE_rel f LFrame lframe_refl (fun _ _ _ => lframe_trans) hstep l s s' h

theorem markPowersInPowerParam_lframe {pp : AttribModParam_Power}
    {fn k : NameKey} {archs : List Nat} {st st' : St}
    (h : markPowersInPowerParam pp fn k archs st = Except.ok st') :
    LFrame st st' := by
  refine foldE_lframe _ ?_ _ _ _ h
  intro s x s' hs
  by_cases hx : x = fn
  · rw [if_pos hx] at hs
    injection hs with hs
    exact hs ▸ lframe_refl s
  · rw [if_neg hx] at hs
    exact mark_lframe hs

theorem copy_lframe {ck : NameKey} {e e' : AttribModParam_EntCreate}
    {st st' : St} (h : copyPowersToEntcreate ck e st = Except.ok (e', st')) :
    LFrame st st' := by
  unfold copyPowersToEntcreate at h
  cases hvd : e.villain_def with
  | none =>
    simp only [hvd, Except.ok.injEq, Prod.mk.injEq] at h
    rw [← h.2]
    exact lframe_refl _
  | some vd =>
    simp only [hvd] at h
    cases hcol : foldE (collectRefsStep st) e.power_refs vd.powers with
    | error er => rw [hcol] at h; exact absurd h (by simp)
    | ok allRefs =>
      simp only [hcol] at h
      cases hmk : foldE
          (fun s r => markPowerForInclusion (some ck) r (entArchs st vd) s)
          st allRefs with
      | error er => rw [hmk] at h; exact absurd h (by simp)
      | ok st1 =>
        simp only [hmk, Except.ok.injEq, Prod.mk.injEq] at h
        rw [← h.2]
        exact foldE_lframe _ (fun s x s' hs => mark_lframe hs) _ _ _ hmk

/-! Latch accounting for `resolve_entity_defs_and_power_grants`. -/

theorem processParam_spec {k : NameKey} {fn : Option NameKey} {archs : List Nat}
    {st st' : St} {pm pm' : AttribModParam} {n : Nat}
    (h : processParam k fn archs st pm = Except.ok (pm', st', n)) :
    LFrame st st' ∧ paramUnresolved pm' + n = paramUnresolved pm := by
  cases pm with
  | entCreate e =>
    simp only [processParam] at h
    by_cases hres : e.resolved
    · simp only [if_pos hres, Except.ok.injEq, Prod.mk.injEq] at h
      obtain ⟨h1, h2, h3⟩ := h
      subst h1; subst h2; subst h3
      exact ⟨lframe_refl st, by simp [paramUnresolved, hres]⟩
    · simp only [if_neg hres] at h
      cases hed : e.pch_entity_def with
      | none =>
        simp only [hed, Except.ok.injEq, Prod.mk.injEq] at h
        obtain ⟨h1, h2, h3⟩ := h
        subst h1; subst h2; subst h3
        exact ⟨lframe_refl st, by simp [paramUnresolved, hres]⟩
      | some edn =>
        simp only [hed] at h
        cases hvl : lookupK st.villains edn with
        | none =>
          simp only [hvl, Except.ok.injEq, Prod.mk.injEq] at h
          obtain ⟨h1, h2, h3⟩ := h
          subst h1; subst h2; subst h3
          exact ⟨lframe_refl st, by simp [paramUnresolved, hres]⟩
        | some vd =>
          simp only [hvl] at h
          cases hcp : copyPowersToEntcreate k
              { pch_entity_def := some edn, villain_def := some vd,
                power_refs := e.power_refs, resolved := e.resolved } st with
          | error er => rw [hcp] at h; exact absurd h (by simp)
          | ok pair =>
            obtain ⟨e2, st2⟩ := pair
            rw [hcp] at h
            simp only [Except.ok.injEq, Prod.mk.injEq] at h
            obtain ⟨h1, h2, h3⟩ := h
            subst h1; subst h2; subst h3
            exact ⟨copy_lframe hcp, by simp [paramUnresolved, hres]⟩
  | power p =>
    simp only [processParam] at h
    by_cases hres : p.resolved
    · simp only [if_pos hres, Except.ok.injEq, Prod.mk.injEq] at h
      obtain ⟨h1, h2, h3⟩ := h
      subst h1; subst h2; subst h3
      exact ⟨lframe_refl st, by simp [paramUnresolved, hres]⟩
    · simp only [if_neg hres] at h
      cases hfn : fn with
      | none => rw [hfn] at h; exact absurd h (by simp)
      | some f =>
        simp only [hfn] at h
        cases hmk : markPowersInPowerParam p f k archs st with
        | error er => rw [hmk] at h; exact absurd h (by simp)
        | ok st2 =>
          simp only [hmk, Except.ok.injEq, Prod.mk.injEq] at h
          obtain ⟨h1, h2, h3⟩ := h
          subst h1; subst h2; subst h3
          exact ⟨markPowersInPowerParam_lframe hmk, by simp [paramUnresolved, hres]⟩
  | otherParam =>
    simp only [processParam, Except.ok.injEq, Prod.mk.injEq] at h
    obtain ⟨h1, h2, h3⟩ := h
    subst h1; subst h2; subst h3
    exact ⟨lframe_refl st, by simp [paramUnresolved]⟩

theorem processTemplates_spec (k : NameKey) (fn : Option NameKey)
    (archs : List Nat) :
    ∀ (ts ts0 : List AttribModTemplate) (st0 : St) (c0 : Nat)
      (ts' : List AttribModTemplate) (st' : St) (c' : Nat),
    processTemplates k fn archs (ts0, st0, c0) ts = Except.ok (ts', st', c') →
    LFrame st0 st' ∧
      (ts'.map tmplUnresolved).sum + c' =
        (ts0.map tmplUnresolved).sum + (ts.map tmplUnresolved).sum + c0 := by
  intro ts
  induction ts with
  | nil =>
    intro ts0 st0 c0 ts' st' c' h
    unfold processTemplates at h
    simp only [Except.ok.injEq, Prod.mk.injEq] at h
    obtain ⟨h1, h2, h3⟩ := h
    subst h1; subst h2; subst h3
    exact ⟨lframe_refl st0, by simp⟩
  | cons t rest ih =>
    intro ts0 st0 c0 ts' st' c' h
    unfold processTemplates at h
    cases hp : t.p_params with
    | none =>
      simp only [hp] at h
      have := ih (ts0 ++ [t]) st0 c0 ts' st' c' h
      refine ⟨this.1, ?_⟩
      have hsum := this.2
      have ht : tmplUnresolved t = 0 := by simp [tmplUnresolved, hp]
      simp only [List.map_append, List.sum_append, List.map_cons, List.sum_cons,
        List.map_nil, List.sum_nil, ht] at hsum ⊢
      omega
    | some pm =>
      simp only [hp] at h
      cases hpp : processParam k fn archs st0 pm with
      | error er => rw [hpp] at h; exact absurd h (by simp)
      | ok trip =>
        obtain ⟨pm', st1, n⟩ := trip
        rw [hpp] at h
        obtain ⟨hfr1, hacc1⟩ := processParam_spec hpp
        have := ih (ts0 ++ [{ t with p_params := some pm' }]) st1 (c0 + n) ts' st' c' h
        refine ⟨lframe_trans hfr1 this.1, ?_⟩
        have hsum := this.2
        have ht : tmplUnresolved t = paramUnresolved pm := by
          simp [tmplUnresolved, hp]
        have ht' : tmplUnresolved { t with p_params := some pm' } =
            paramUnresolved pm' := by simp [tmplUnresolved]
        simp only [List.map_append, List.sum_append, List.map_cons, List.sum_cons,
          List.map_nil, List.sum_nil, ht, ht'] at hsum ⊢
        omega

/-- Step relation used for the latch accounting of the entity-def pass. -/
def StepRel (a b : St × Nat) : Prop :=
  powsRR b.1 = powsRR a.1 ∧ b.1.villains = a.1.villains ∧
  b.1.villainArchetypes = a.1.villainArchetypes ∧
  latchMeasure b.1 + b.2 = latchMeasure a.1 + a.2

theorem stepRel_refl (a : St × Nat) : StepRel a a := ⟨rfl, rfl, rfl, rfl⟩

theorem stepRel_trans {a b c : St × Nat} (h1 : StepRel a b) (h2 : StepRel b c) :
    StepRel a c :=
  ⟨h2.1.trans h1.1, h2.2.1.trans h1.2.1, h2.2.2.1.trans h1.2.2.1, by
    have := h1.2.2.2; have := h2.2.2.2; omega⟩

theorem processEgroup_spec {k : NameKey} {fn : Option NameKey} {archs : List Nat}
    {st st2 : St} {c c2 : Nat} {gi : Nat}
    (h : processEgroup k fn archs (st, c) gi = Except.ok (st2, c2)) :
    StepRel (st, c) (st2, c2) := by
  simp only [processEgroup] at h
  cases hg : st.egroups[gi]? with
  | none =>
    simp only [hg, Except.ok.injEq, Prod.mk.injEq] at h
    obtain ⟨h1, h2⟩ := h
    subst h1; subst h2
    exact stepRel_refl _
  | some g =>
    simp only [hg] at h
    cases hpt : processTemplates k fn archs ([], st, 0) g.pp_templates with
    | error er => rw [hpt] at h; exact absurd h (by simp)
    | ok trip =>
      obtain ⟨ts', st1, c1⟩ := trip
      rw [hpt] at h
      simp only [Except.ok.injEq, Prod.mk.injEq] at h
      obtain ⟨h1, h2⟩ := h
      obtain ⟨⟨hrr, heg, hvil, hva⟩, hsum⟩ :=
        processTemplates_spec k fn archs g.pp_templates [] st 0 ts' st1 c1 hpt
      subst h1; subst h2
      refine ⟨hrr, hvil, hva, ?_⟩
      dsimp only
      have hset : ({ st1 with
          egroups := st1.egroups.set gi { g with pp_templates := ts' } } : St).egroups
          = st.egroups.set gi { g with pp_templates := ts' } := by rw [heg]
      have hmuE := sum_map_set egUnresolved st.egroups gi g
        { g with pp_templates := ts' } hg
      have hmuE2 : muE { st1 with
          egroups := st1.egroups.set gi { g with pp_templates := ts' } } +
          egUnresolved g = muE st + egUnresolved { g with pp_templates := ts' } := by
        unfold muE
        rw [hset]
        exact hmuE
      have hg' : egUnresolved { g with pp_templates := ts' } =
          (ts'.map tmplUnresolved).sum := rfl
      have hmuR : muR { st1 with
          egroups := st1.egroups.set gi { g with pp_templates := ts' } } = muR st := by
        have : muR st1 = muR st := muR_eq_of_powsRR hrr
        unfold muR at this ⊢
        exact this
      simp only [List.map_nil, List.sum_nil, Nat.zero_add, Nat.add_zero] at hsum
      unfold latchMeasure
      have hmuE3 : muE st = (st.egroups.map egUnresolved).sum := rfl
      have hgUn : egUnresolved g = (g.pp_templates.map tmplUnresolved).sum := rfl
      omega

theorem resolveStepEnt_spec {acc acc' : St × Nat} {k : NameKey}
    (h : resolveStepEnt acc k = Except.ok acc') : StepRel acc acc' := by
  obtain ⟨st, c⟩ := acc
  simp only [resolveStepEnt] at h
  cases hlk : lookupK st.powers k with
  | none =>
    simp only [hlk] at h
    injection h with h
    exact h ▸ stepRel_refl _
  | some p =>
    simp only [hlk] at h
    by_cases hinc : p.include_in_output
    · simp only [hinc, if_true] at h
      refine foldE_rel _ StepRel stepRel_refl (fun _ _ _ => stepRel_trans) ?_
        p.pp_effects (st, c) acc' h
      intro s x s' hs
      obtain ⟨s1, cc1⟩ := s
      obtain ⟨s2, cc2⟩ := s'
      exact processEgroup_spec hs
    · rw [Bool.not_eq_true] at hinc
      simp only [hinc, if_false] at h
      injection h with h
      exact h ▸ stepRel_refl _

theorem resolve_entity_defs_spec {st st1 : St} {c1 : Nat}
    (h : resolve_entity_defs_and_power_grants st = Except.ok (st1, c1)) :
    powsRR st1 = powsRR st ∧ latchMeasure st1 + c1 = latchMeasure st := by
  unfold resolve_entity_defs_and_power_grants at h
  have := foldE_rel _ StepRel stepRel_refl (fun _ _ _ => stepRel_trans)
    (fun s x s' hs => resolveStepEnt_spec hs) (st.powers.map Prod.fst)
    (st, 0) (st1, c1) h
  refine ⟨this.1, ?_⟩
  have hx := this.2.2.2
  dsimp only at hx
  omega

/-! Latch accounting for `resolve_power_redirects`. -/

theorem markRedirect_lframe {k : NameKey} {archs : List Nat} {s s' : St}
    {rd : PowerRedirect} (h : markRedirect k archs s rd = Except.ok s') :
    LFrame s s' := by
  unfold markRedirect at h
  cases hn : rd.pch_name with
  | none =>
    rw [hn] at h
    injection h with h
    exact h ▸ lframe_refl s
  | some n => rw [hn] at h; exact mark_lframe h

theorem resolveStepRedir_spec {acc acc' : St × Nat} {k : NameKey}
    (h : resolveStepRedir acc k = Except.ok acc') :
    latchMeasure acc'.1 + acc'.2 ≤ latchMeasure acc.1 + acc.2 := by
  obtain ⟨st, c⟩ := acc
  simp only [resolveStepRedir] at h
  cases hlk : lookupK st.powers k with
  | none =>
    simp only [hlk] at h
    injection h with h
    rw [← h]
  | some p =>
    simp only [hlk] at h
    by_cases hcond : p.include_in_output && !p.redirects_resolved
    · rw [if_pos hcond] at h
      cases hmk : foldE (markRedirect k p.archetypes) st p.pp_redirect with
      | error er => rw [hmk] at h; exact absurd h (by simp)
      | ok st' =>
        rw [hmk] at h
        injection h with h
        obtain ⟨hrr, heg, _, _⟩ :=
          foldE_lframe _ (fun s x s' hs => markRedirect_lframe hs) _ _ _ hmk
        have hrrp : p.redirects_resolved = false := by
          rcases Bool.and_eq_true_iff.mp hcond with ⟨_, hb⟩
          simpa using hb
        have hq : ∃ q, lookupK st'.powers k = some q ∧
            q.redirects_resolved = false := by
          have hproj : lookupK (powsRR st') k = some p.redirects_resolved := by
            rw [hrr]
            unfold powsRR
            rw [lookupK_map_proj, hlk]
            rfl
          unfold powsRR at hproj
          rw [lookupK_map_proj] at hproj
          cases hlk' : lookupK st'.powers k with
          | none => rw [hlk'] at hproj; exact absurd hproj (by simp)
          | some q =>
            rw [hlk'] at hproj
            refine ⟨q, rfl, ?_⟩
            injection hproj with hproj
            rw [hproj, hrrp]
        obtain ⟨q, hlkq, hqrr⟩ := hq
        have hlt : muR { st' with powers := updateK st'.powers k rrSet } < muR st' := by
          unfold muR
          refine countP_updateK_lt st'.powers k rrSet _ q hlkq ?_ ?_
          · rw [hqrr]; rfl
          · intro v'; rfl
        have hmuE : muE { st' with powers := updateK st'.powers k rrSet } = muE st' :=
          rfl
        have hmuR' : muR st' = muR st := muR_eq_of_powsRR hrr
        have hmuE' : muE st' = muE st := by unfold muE; rw [heg]
        rw [← h]
        simp only [latchMeasure] at *
        omega
    · rw [if_neg hcond] at h
      injection h with h
      rw [← h]

theorem resolve_power_redirects_spec {st st2 : St} {c2 : Nat}
    (h : resolve_power_redirects st = Except.ok (st2, c2)) :
    latchMeasure st2 + c2 ≤ latchMeasure st := by
  unfold resolve_power_redirects at h
  have := foldE_rel _
    (fun a b : St × Nat => latchMeasure b.1 + b.2 ≤ latchMeasure a.1 + a.2)
    (fun a => le_refl _) (fun a b c h1 h2 => by omega)
    (fun s x s' hs => resolveStepRedir_spec hs)
    (st.powers.map Prod.fst) (st, 0) (st2, c2) h
  simpa using this

theorem onePass_decrease {st st' : St} {c : Nat}
    (h : onePass st = Except.ok (st', c)) :
    latchMeasure st' + c ≤ latchMeasure st := by
  unfold onePass at h
  cases h1 : resolve_entity_defs_and_power_grants st with
  | error er => rw [h1] at h; exact absurd h (by simp)
  | ok p1 =>
    obtain ⟨st1, c1⟩ := p1
    rw [h1] at h
    simp only at h
    cases h2 : resolve_power_redirects st1 with
    | error er => rw [h2] at h; exact absurd h (by simp)
    | ok p2 =>
      obtain ⟨st2, c2⟩ := p2
      rw [h2] at h
      simp only at h
      simp only [Except.ok.injEq, Prod.mk.injEq] at h
      obtain ⟨ha, hb⟩ := h
      subst ha; subst hb
      have e1 := (resolve_entity_defs_spec h1).2
      have e2 := resolve_power_redirects_spec h2
      omega

theorem loopFuel_isSome_of_lt :
    ∀ (n : Nat) (st : St), latchMeasure st < n → (loopFuel n st).isSome := by
  intro n
  induction n with
  | zero => intro st h; exact absurd h (Nat.not_lt_zero _)
  | succ n ih =>
    intro st h
    unfold loopFuel
    cases hp : onePass st with
    | error e => simp
    | ok p =>
      obtain ⟨st', c⟩ := p
      simp only
      by_cases hc : c = 0
      · rw [if_pos hc]; simp
      · rw [if_neg hc]
        have hd := onePass_decrease hp
        exact ih st' (by omega)

/-- C1: the fixed-point driver loop of `load_powers_dictionary` terminates
for every finite input graph.  Each pass that returns a positive count flips
at least one one-way latch (`resolved` on an EntCreate or Power param,
`redirects_resolved` on a power), latches are never unset, and the number
of latch sites (`latchMeasure`) is finite, so with fuel `latchMeasure st + 1`
the loop always reaches `count = 0` (or a panic abort) before the fuel runs
out. -/
theorem c1_fixed_point_loop_terminates (st : St) :
    (loopFuel (latchMeasure st + 1) st).isSome :=
  loopFuel_isSome_of_lt (latchMeasure st + 1) st (by omega)

/-! Zero-count passes are identities: the idempotence chain. -/

theorem processParam_cases {k : NameKey} {fn : Option NameKey} {archs : List Nat}
    {st st' : St} {pm pm' : AttribModParam} {n : Nat}
    (h : processParam k fn archs st pm = Except.ok (pm', st', n)) :
    (paramUnresolved pm = 0 ∧ n = 0 ∧ pm' = pm ∧ st' = st) ∨
      (paramUnresolved pm = 1 ∧ n = 1) := by
  cases pm with
  | entCreate e =>
    simp only [processParam] at h
    by_cases hres : e.resolved
    · simp only [if_pos hres, Except.ok.injEq, Prod.mk.injEq] at h
      exact Or.inl ⟨by simp [paramUnresolved, hres], h.2.2.symm, h.1.symm, h.2.1.symm⟩
    · simp only [if_neg hres] at h
      refine Or.inr ⟨by simp [paramUnresolved, hres], ?_⟩
      cases hed : e.pch_entity_def with
      | none =>
        simp only [hed, Except.ok.injEq, Prod.mk.injEq] at h
        exact h.2.2.symm
      | some edn =>
        simp only [hed] at h
        cases hvl : lookupK st.villains edn with
        | none =>
          simp only [hvl, Except.ok.injEq, Prod.mk.injEq] at h
          exact h.2.2.symm
        | some vd =>
          simp only [hvl] at h
          cases hcp : copyPowersToEntcreate k
              { pch_entity_def := some edn, villain_def := some vd,
                power_refs := e.power_refs, resolved := e.resolved } st with
          | error er => rw [hcp] at h; exact absurd h (by simp)
          | ok pair =>
            obtain ⟨e2, st2⟩ := pair
            rw [hcp] at h
            simp only [Except.ok.injEq, Prod.mk.injEq] at h
            exact h.2.2.symm
  | power p =>
    simp only [processParam] at h
    by_cases hres : p.resolved
    · simp only [if_pos hres, Except.ok.injEq, Prod.mk.injEq] at h
      exact Or.inl ⟨by simp [paramUnresolved, hres], h.2.2.symm, h.1.symm, h.2.1.symm⟩
    · simp only [if_neg hres] at h
      refine Or.inr ⟨by simp [paramUnresolved, hres], ?_⟩
      cases hfn : fn with
      | none => rw [hfn] at h; exact absurd h (by simp)
      | some f =>
        simp only [hfn] at h
        cases hmk : markPowersInPowerParam p f k archs st with
        | error er => rw [hmk] at h; exact absurd h (by simp)
        | ok st2 =>
          simp only [hmk, Except.ok.injEq, Prod.mk.injEq] at h
          exact h.2.2.symm
  | otherParam =>
    simp only [processParam, Except.ok.injEq, Prod.mk.injEq] at h
    exact Or.inl ⟨rfl, h.2.2.symm, h.1.symm, h.2.1.symm⟩

theorem processTemplates_zero (k : NameKey) (fn : Option NameKey)
    (archs : List Nat) :
    ∀ (ts ts0 : List AttribModTemplate) (st0 : St) (c0 : Nat)
      (ts' : List AttribModTemplate) (st' : St) (c' : Nat),
    processTemplates k fn archs (ts0, st0, c0) ts = Except.ok (ts', st', c') →
    c0 ≤ c' ∧ (c' = c0 → ts' = ts0 ++ ts ∧ st' = st0 ∧
      ∀ t ∈ ts, ∀ pm, t.p_params = some pm → paramUnresolved pm = 0) := by
  intro ts
  induction ts with
  | nil =>
    intro ts0 st0 c0 ts' st' c' h
    simp only [processTemplates, Except.ok.injEq, Prod.mk.injEq] at h
    obtain ⟨h1, h2, h3⟩ := h
    subst h1; subst h2; subst h3
    exact ⟨le_refl _, fun _ => ⟨by simp, rfl, by simp⟩⟩
  | cons t rest ih =>
    intro ts0 st0 c0 ts' st' c' h
    simp only [processTemplates] at h
    cases hp : t.p_params with
    | none =>
      simp only [hp] at h
      obtain ⟨hle, hzero⟩ := ih (ts0 ++ [t]) st0 c0 ts' st' c' h
      refine ⟨hle, fun hc => ?_⟩
      obtain ⟨h1, h2, h3⟩ := hzero hc
      refine ⟨by simpa using h1, h2, ?_⟩
      intro t' ht' pm hpm
      cases ht' with
      | head => rw [hp] at hpm; exact absurd hpm (by simp)
      | tail _ hmem => exact h3 t' hmem pm hpm
    | some pm =>
      simp only [hp] at h
      cases hpp : processParam k fn archs st0 pm with
      | error er => rw [hpp] at h; exact absurd h (by simp)
      | ok trip =>
        obtain ⟨pm', st1, n⟩ := trip
        rw [hpp] at h
        obtain ⟨hle, hzero⟩ :=
          ih (ts0 ++ [{ t with p_params := some pm' }]) st1 (c0 + n) ts' st' c' h
        refine ⟨by omega, fun hc => ?_⟩
        have hn : n = 0 := by omega
        subst hn
        rcases processParam_cases hpp with ⟨hu, _, hpm', hst1⟩ | ⟨_, habs⟩
        · obtain ⟨h1, h2, h3⟩ := hzero (by omega)
          refine ⟨?_, h2.trans hst1, ?_⟩
          · rw [h1, hpm', ← hp]
            show ts0 ++ [t] ++ rest = ts0 ++ t :: rest
            simp
          · intro t' ht' pm2 hpm2
            cases ht' with
            | head =>
              rw [hp] at hpm2
              injection hpm2 with hpm2
              rw [← hpm2]
              exact hu
            | tail _ hmem => exact h3 t' hmem pm2 hpm2
        · exact absurd habs (by omega)

theorem foldE_zero_chain {σ α : Type} (f : σ → α → Except Panic σ)
    (cnt : σ → Nat)
    (hmono : ∀ s x s', f s x = Except.ok s' → cnt s ≤ cnt s')
    (hid : ∀ s x s', f s x = Except.ok s' → cnt s' = cnt s → s' = s) :
    ∀ (l : List α) (s s' : σ), foldE f s l = Except.ok s' →
      cnt s ≤ cnt s' ∧
        (cnt s' = cnt s → s' = s ∧ ∀ x ∈ l, f s x = Except.ok s) := by
  intro l
  induction l with
  | nil =>
    intro s s' h
    simp only [foldE_nil, Except.ok.injEq] at h
    subst h
    exact ⟨le_refl _, fun _ => ⟨rfl, by simp⟩⟩
  | cons a as ih =>
    intro s s' h
    obtain ⟨s1, h1, h2⟩ := foldE_cons_ok f s s' a as h
    have hm1 := hmono s a s1 h1
    obtain ⟨hm2, hz2⟩ := ih s1 s' h2
    refine ⟨le_trans hm1 hm2, fun hc => ?_⟩
    have hc1 : cnt s1 = cnt s := by omega
    have hs1 : s1 = s := hid s a s1 h1 hc1
    subst hs1
    obtain ⟨hss, hall⟩ := hz2 (by omega)
    subst hss
    exact ⟨rfl, fun x hx => by
      cases hx with
      | head => exact h1
      | tail _ hmem => exact hall x hmem⟩

theorem processEgroup_zero {k : NameKey} {fn : Option NameKey} {archs : List Nat}
    {st st2 : St} {c c2 : Nat} {gi : Nat}
    (h : processEgroup k fn archs (st, c) gi = Except.ok (st2, c2)) :
    c ≤ c2 ∧ (c2 = c → st2 = st ∧
      ∀ g, st.egroups[gi]? = some g →
        ∀ t ∈ g.pp_templates, ∀ pm, t.p_params = some pm →
          paramUnresolved pm = 0) := by
  simp only [processEgroup] at h
  cases hg : st.egroups[gi]? with
  | none =>
    simp only [hg, Except.ok.injEq, Prod.mk.injEq] at h
    obtain ⟨h1, h2⟩ := h
    subst h1; subst h2
    exact ⟨le_refl _, fun _ => ⟨rfl, fun g hgg => absurd hgg (by simp)⟩⟩
  | some g =>
    simp only [hg] at h
    cases hpt : processTemplates k fn archs ([], st, 0) g.pp_templates with
    | error er => rw [hpt] at h; exact absurd h (by simp)
    | ok trip =>
      obtain ⟨ts', st1, c1⟩ := trip
      rw [hpt] at h
      simp only [Except.ok.injEq, Prod.mk.injEq] at h
      obtain ⟨h1, h2⟩ := h
      obtain ⟨_, hzero⟩ :=
        processTemplates_zero k fn archs g.pp_templates [] st 0 ts' st1 c1 hpt
      refine ⟨by omega, fun hc => ?_⟩
      have hc1 : c1 = 0 := by omega
      obtain ⟨hts, hst1, hchar⟩ := hzero hc1
      have hts' : ts' = g.pp_templates := by simpa using hts
      constructor
      · rw [← h1, hst1, hts']
        have hgg : ({ g with pp_templates := g.pp_templates } : EffectGroup) = g := rfl
        rw [hgg, list_set_self st.egroups gi g hg]
      · intro g' hg'
        injection hg' with he
        rw [← he]
        exact hchar

theorem resolveStepEnt_mono {acc acc' : St × Nat} {k : NameKey}
    (h : resolveStepEnt acc k = Except.ok acc') : acc.2 ≤ acc'.2 := by
  obtain ⟨st, c⟩ := acc
  simp only [resolveStepEnt] at h
  cases hlk : lookupK st.powers k with
  | none =>
    simp only [hlk] at h
    injection h with h
    rw [← h]
  | some p =>
    simp only [hlk] at h
    by_cases hinc : p.include_in_output
    · simp only [hinc, if_true] at h
      refine foldE_rel _ (fun a b : St × Nat => a.2 ≤ b.2) (fun _ => le_refl _)
        (fun _ _ _ h1 h2 => le_trans h1 h2) ?_ p.pp_effects (st, c) acc' h
      intro s x s' hs
      obtain ⟨s1, cc1⟩ := s
      exact (processEgroup_zero hs).1
    · rw [Bool.not_eq_true] at hinc
      simp only [hinc, Bool.false_eq_true, if_false] at h
      injection h with h
      rw [← h]

theorem resolveStepEnt_zero {st st2 : St} {c c2 : Nat} {k : NameKey}
    (h : resolveStepEnt (st, c) k = Except.ok (st2, c2)) :
    c ≤ c2 ∧ (c2 = c → st2 = st ∧
      ∀ p, lookupK st.powers k = some p → p.include_in_output = true →
        ∀ gi ∈ p.pp_effects, ∀ g, st.egroups[gi]? = some g →
          ∀ t ∈ g.pp_templates, ∀ pm, t.p_params = some pm →
            paramUnresolved pm = 0) := by
  have hmono := resolveStepEnt_mono h
  refine ⟨hmono, fun hc => ?_⟩
  simp only [resolveStepEnt] at h
  cases hlk : lookupK st.powers k with
  | none =>
    simp only [hlk, Except.ok.injEq, Prod.mk.injEq] at h
    exact ⟨h.1.symm, fun p hp => absurd hp (by simp)⟩
  | some p =>
    simp only [hlk] at h
    by_cases hinc : p.include_in_output
    · simp only [hinc, if_true] at h
      have := foldE_zero_chain
        (processEgroup k p.pch_full_name p.archetypes)
        (fun s => s.2)
        (fun s x s' hs => by
          obtain ⟨s1, cc1⟩ := s; obtain ⟨s2, cc2⟩ := s'
          exact (processEgroup_zero hs).1)
        (fun s x s' hs hcs => by
          obtain ⟨s1, cc1⟩ := s; obtain ⟨s2, cc2⟩ := s'
          obtain ⟨hs2, _⟩ := (processEgroup_zero hs).2 hcs
          rw [hs2]
          simp only at hcs
          rw [hcs])
        p.pp_effects (st, c) (st2, c2) h
      obtain ⟨_, hzero⟩ := this
      obtain ⟨hpair, hall⟩ := hzero hc
      have hst2 : st2 = st := congrArg Prod.fst hpair
      refine ⟨hst2, ?_⟩
      intro p' hp' hinc' gi hgi g hg t ht pm hpm
      injection hp' with hp'
      subst hp'
      have hstep := hall gi hgi
      obtain ⟨_, hchar⟩ := (processEgroup_zero hstep).2 rfl
      exact hchar g hg t ht pm hpm
    · rw [Bool.not_eq_true] at hinc
      simp only [hinc, Bool.false_eq_true, if_false, Except.ok.injEq, Prod.mk.injEq] at h
      refine ⟨h.1.symm, ?_⟩
      intro p' hp' hinc' gi hgi g hg t ht pm hpm
      injection hp' with hp'
      subst hp'
      rw [hinc] at hinc'
      exact absurd hinc' (by simp)

theorem resolve_entity_defs_zero {st st1 : St}
    (h : resolve_entity_defs_and_power_grants st = Except.ok (st1, 0)) :
    st1 = st ∧
      ∀ k p, lookupK st.powers k = some p → p.include_in_output = true →
        ∀ gi ∈ p.pp_effects, ∀ g, st.egroups[gi]? = some g →
          ∀ t ∈ g.pp_templates, ∀ pm, t.p_params = some pm →
            paramUnresolved pm = 0 := by
  unfold resolve_entity_defs_and_power_grants at h
  have := foldE_zero_chain resolveStepEnt (fun s => s.2)
    (fun s x s' hs => resolveStepEnt_mono hs)
    (fun s x s' hs hcs => by
      obtain ⟨s1, cc1⟩ := s; obtain ⟨s2, cc2⟩ := s'
      simp only at hcs
      subst hcs
      obtain ⟨hs2, _⟩ := (resolveStepEnt_zero hs).2 rfl
      rw [hs2])
    (st.powers.map Prod.fst) (st, 0) (st1, 0) h
  obtain ⟨_, hzero⟩ := this
  obtain ⟨hpair, hall⟩ := hzero rfl
  have hst1 : st1 = st := congrArg Prod.fst hpair
  refine ⟨hst1, ?_⟩
  intro k p hlk hinc gi hgi g hg t ht pm hpm
  have hk : k ∈ st.powers.map Prod.fst :=
    (lookupK_isSome_iff st.powers k).mp (by rw [hlk]; rfl)
  have hstep := hall k hk
  obtain ⟨_, hchar⟩ := (resolveStepEnt_zero hstep).2 rfl
  exact hchar p hlk hinc gi hgi g hg t ht pm hpm

theorem resolveStepRedir_zero {st st2 : St} {c c2 : Nat} {k : NameKey}
    (h : resolveStepRedir (st, c) k = Except.ok (st2, c2)) :
    c ≤ c2 ∧ (c2 = c → st2 = st ∧
      ∀ p, lookupK st.powers k = some p → p.include_in_output = true →
        p.redirects_resolved = true) := by
  simp only [resolveStepRedir] at h
  cases hlk : lookupK st.powers k with
  | none =>
    simp only [hlk] at h
    injection h with h
    refine ⟨le_of_eq (congrArg Prod.snd h), fun _ => ⟨(congrArg Prod.fst h).symm, ?_⟩⟩
    intro p hp
    exact absurd hp (by simp)
  | some p =>
    simp only [hlk] at h
    by_cases hcond : p.include_in_output && !p.redirects_resolved
    · simp only [hcond, if_true] at h
      cases hmk : foldE (markRedirect k p.archetypes) st p.pp_redirect with
      | error er => rw [hmk] at h; exact absurd h (by simp)
      | ok st' =>
        rw [hmk] at h
        simp only [Except.ok.injEq, Prod.mk.injEq] at h
        refine ⟨by omega, fun hc => absurd hc (by omega)⟩
    · rw [Bool.not_eq_true, Bool.and_eq_false_iff] at hcond
      have hcond2 : (p.include_in_output && !p.redirects_resolved) = false := by
        rcases hcond with h1 | h1 <;> simp [h1]
      simp only [hcond2, Bool.false_eq_true, if_false] at h
      injection h with h
      refine ⟨le_of_eq (congrArg Prod.snd h), fun _ => ⟨(congrArg Prod.fst h).symm, ?_⟩⟩
      intro p' hp' hinc
      injection hp' with hp'
      subst hp'
      rcases hcond with h1 | h1
      · rw [h1] at hinc; exact absurd hinc (by simp)
      · simpa using h1

theorem resolve_power_redirects_zero {st st2 : St}
    (h : resolve_power_redirects st = Except.ok (st2, 0)) :
    st2 = st ∧
      ∀ k p, lookupK st.powers k = some p → p.include_in_output = true →
        p.redirects_resolved = true := by
  unfold resolve_power_redirects at h
  have := foldE_zero_chain resolveStepRedir (fun s => s.2)
    (fun s x s' hs => by
      obtain ⟨s1, cc1⟩ := s; obtain ⟨s2, cc2⟩ := s'
      exact (resolveStepRedir_zero hs).1)
    (fun s x s' hs hcs => by
      obtain ⟨s1, cc1⟩ := s; obtain ⟨s2, cc2⟩ := s'
      simp only at hcs
      subst hcs
      obtain ⟨hs2, _⟩ := (resolveStepRedir_zero hs).2 rfl
      rw [hs2])
    (st.powers.map Prod.fst) (st, 0) (st2, 0) h
  obtain ⟨_, hzero⟩ := this
  obtain ⟨hpair, hall⟩ := hzero rfl
  have hst2 : st2 = st := congrArg Prod.fst hpair
  refine ⟨hst2, ?_⟩
  intro k p hlk hinc
  have hk : k ∈ st.powers.map Prod.fst :=
    (lookupK_isSome_iff st.powers k).mp (by rw [hlk]; rfl)
  have hstep := hall k hk
  obtain ⟨_, hchar⟩ := (resolveStepRedir_zero hstep).2 rfl
  exact hchar p hlk hinc

theorem onePass_zero {st st' : St} (h : onePass st = Except.ok (st', 0)) :
    st' = st ∧
      (∀ k p, lookupK st.powers k = some p → p.include_in_output = true →
        p.redirects_resolved = true) ∧
      (∀ k p, lookupK st.powers k = some p → p.include_in_output = true →
        ∀ gi ∈ p.pp_effects, ∀ g, st.egroups[gi]? = some g →
          ∀ t ∈ g.pp_templates, ∀ pm, t.p_params = some pm →
            paramUnresolved pm = 0) := by
  unfold onePass at h
  cases h1 : resolve_entity_defs_and_power_grants st with
  | error er => rw [h1] at h; exact absurd h (by simp)
  | ok p1 =>
    obtain ⟨st1, c1⟩ := p1
    rw [h1] at h
    simp only at h
    cases h2 : resolve_power_redirects st1 with
    | error er => rw [h2] at h; exact absurd h (by simp)
    | ok p2 =>
      obtain ⟨st2, c2⟩ := p2
      rw [h2] at h
      simp only [Except.ok.injEq, Prod.mk.injEq] at h
      obtain ⟨ha, hb⟩ := h
      have hc1 : c1 = 0 := by omega
      have hc2 : c2 = 0 := by omega
      subst hc1
      obtain ⟨he1, hchar1⟩ := resolve_entity_defs_zero h1
      subst he1
      subst hc2
      subst ha
      obtain ⟨he2, hchar2⟩ := resolve_power_redirects_zero h2
      subst he2
      exact ⟨rfl, hchar2, hchar1⟩

/-- C4: once the fixed-point loop has finished (a pass returned count 0),
the graph is fully resolved: running a pass again yields count 0 and changes
nothing, every included power has `redirects_resolved` set, and every
EntCreate/Power parameter reachable inside an included power is `resolved`,
so neither resolver finds any work. -/
theorem c4_loop_idempotent {n : Nat} {st stF : St}
    (h : loopFuel n st = some (Except.ok stF)) :
    onePass stF = Except.ok (stF, 0) ∧
      (∀ k p, lookupK stF.powers k = some p → p.include_in_output = true →
        p.redirects_resolved = true) ∧
      (∀ k p, lookupK stF.powers k = some p → p.include_in_output = true →
        ∀ gi ∈ p.pp_effects, ∀ g, stF.egroups[gi]? = some g →
          ∀ t ∈ g.pp_templates, ∀ pm, t.p_params = some pm →
            paramUnresolved pm = 0) := by
  induction n generalizing st with
  | zero => exact absurd h (by simp [loopFuel])
  | succ n ih =>
    unfold loopFuel at h
    cases hp : onePass st with
    | error e => rw [hp] at h; simp at h
    | ok pr =>
      obtain ⟨st', c⟩ := pr
      rw [hp] at h
      simp only at h
      by_cases hc : c = 0
      · rw [if_pos hc] at h
        simp only [Option.some.injEq, Except.ok.injEq] at h
        subst hc
        obtain ⟨hid, hchar1, hchar2⟩ := onePass_zero hp
        subst hid
        subst h
        exact ⟨hp, hchar1, hchar2⟩
      · rw [if_neg hc] at h
        exact ih h

/-- Concrete state used to witness C4: a single included power with no
redirects and no effect parameters. -/
def c4St : St :=
  { powers := [("Cat.Set.P",
      { pch_full_name := some ("Cat.Set.P"), include_in_output := true })] }

/-- Fixed point of the loop on `c4St`: the `redirects_resolved` latch is set
after the first pass. -/
def c4StF : St :=
  { powers := [("Cat.Set.P",
      { pch_full_name := some ("Cat.Set.P"), include_in_output := true,
        redirects_resolved := true })] }

theorem c4_loop_idempotent_witness :
    loopFuel 2 c4St = some (Except.ok c4StF) ∧
      onePass c4StF = Except.ok (c4StF, 0) :=
  ⟨rfl, (@c4_loop_idempotent 2 c4St c4StF rfl).1⟩

/-! Monotonicity of `include_in_output`. -/

/-- Relation: every category, set and power flagged for output in `st` is
still flagged in `st'`. -/
def InclMono (st st' : St) : Prop :=
  (∀ k c, lookupK st.powerCats k = some c → c.include_in_output = true →
    ∃ c', lookupK st'.powerCats k = some c' ∧ c'.include_in_output = true) ∧
  (∀ k s0, lookupK st.powerSets k = some s0 → s0.include_in_output = true →
    ∃ s1, lookupK st'.powerSets k = some s1 ∧ s1.include_in_output = true) ∧
  (∀ k p, lookupK st.powers k = some p → p.include_in_output = true →
    ∃ p', lookupK st'.powers k = some p' ∧ p'.include_in_output = true)

theorem inclMono_refl (st : St) : InclMono st st :=
  ⟨fun k c h hv => ⟨c, h, hv⟩, fun k s h hv => ⟨s, h, hv⟩, fun k p h hv => ⟨p, h, hv⟩⟩

theorem inclMono_trans {a b c : St} (h1 : InclMono a b) (h2 : InclMono b c) :
    InclMono a c := by
  obtain ⟨h1c, h1s, h1p⟩ := h1
  obtain ⟨h2c, h2s, h2p⟩ := h2
  refine ⟨fun k x h hv => ?_, fun k x h hv => ?_, fun k x h hv => ?_⟩
  · obtain ⟨y, hy, hvy⟩ := h1c k x h hv
    exact h2c k y hy hvy
  · obtain ⟨y, hy, hvy⟩ := h1s k x h hv
    exact h2s k y hy hvy
  · obtain ⟨y, hy, hvy⟩ := h1p k x h hv
    exact h2p k y hy hvy

theorem lookup_mono_updateK {α : Type} (geti : α → Bool) (l : List (NameKey × α))
    (k : NameKey) (f : α → α) (hf : ∀ v, geti v = true → geti (f v) = true)
    (k' : NameKey) (v : α) (hl : lookupK l k' = some v) (hv : geti v = true) :
    ∃ v', lookupK (updateK l k f) k' = some v' ∧ geti v' = true := by
  rw [lookupK_updateK]
  by_cases hk : k' = k
  · rw [if_pos hk, hl]
    exact ⟨f v, rfl, hf v hv⟩
  · rw [if_neg hk, hl]
    exact ⟨v, rfl, hv⟩

theorem mark_inclMono {b : Option NameKey} {r : NameKey} {a : List Nat}
    {st st' : St} (h : markPowerForInclusion b r a st = Except.ok st') :
    InclMono st st' := by
  obtain ⟨p1, _, hcats, hsets, hpows, _, _, _⟩ := mark_ok_shape h
  refine ⟨?_, ?_, ?_⟩
  · intro k c hl hv
    rw [hcats]
    exact lookup_mono_updateK (fun c => c.include_in_output) _ _ inclCat
      (fun v _ => rfl) k c hl hv
  · intro k s0 hl hv
    rw [hsets]
    exact lookup_mono_updateK (fun s => s.include_in_output) _ _ inclSet
      (fun v _ => rfl) k s0 hl hv
  · intro k p hl hv
    cases hpows with
    | inl hsame => rw [hsame]; exact ⟨p, hl, hv⟩
    | inr hupd =>
      rw [hupd]
      exact lookup_mono_updateK (fun p => p.include_in_output) _ _ (inclArch a)
        (fun v _ => rfl) k p hl hv

theorem foldE_inclMono {α : Type} (f : St → α → Except Panic St)
    (hstep : ∀ s x s', f s x = Except.ok s' → InclMono s s') (l : List α)
    (s s' : St) (h : foldE f s l = Except.ok s') : InclMono s s' :=
  foldE_rel f InclMono inclMono_refl (fun _ _ _ => inclMono_trans) hstep l s s' h

theorem copy_inclMono {ck : NameKey} {e e' : AttribModParam_EntCreate}
    {st st' : St} (h : copyPowersToEntcreate ck e st = Except.ok (e', st')) :
    InclMono st st' := by
  unfold copyPowersToEntcreate at h
  cases hvd : e.villain_def with
  | none =>
    simp only [hvd, Except.ok.injEq, Prod.mk.injEq] at h
    rw [← h.2]
    exact inclMono_refl _
  | some vd =>
    simp only [hvd] at h
    cases hcol : foldE (collectRefsStep st) e.power_refs vd.powers with
    | error er => rw [hcol] at h; exact absurd h (by simp)
    | ok allRefs =>
      simp only [hcol] at h
      cases hmk : foldE
          (fun s r => markPowerForInclusion (some ck) r (entArchs st vd) s)
          st allRefs with
      | error er => rw [hmk] at h; exact absurd h (by simp)
      | ok st1 =>
        simp only [hmk, Except.ok.injEq, Prod.mk.injEq] at h
        rw [← h.2]
        exact foldE_inclMono _ (fun s x s' hs => mark_inclMono hs) _ _ _ hmk

theorem processParam_inclMono {k : NameKey} {fn : Option NameKey}
    {archs : List Nat} {st st' : St} {pm pm' : AttribModParam} {n : Nat}
    (h : processParam k fn archs st pm = Except.ok (pm', st', n)) :
    InclMono st st' := by
  cases pm with
  | entCreate e =>
    simp only [processParam] at h
    by_cases hres : e.resolved
    · simp only [if_pos hres, Except.ok.injEq, Prod.mk.injEq] at h
      rw [← h.2.1]
      exact inclMono_refl st
    · simp only [if_neg hres] at h
      cases hed : e.pch_entity_def with
      | none =>
        simp only [hed, Except.ok.injEq, Prod.mk.injEq] at h
        rw [← h.2.1]
        exact inclMono_refl st
      | some edn =>
        simp only [hed] at h
        cases hvl : lookupK st.villains edn with
        | none =>
          simp only [hvl, Except.ok.injEq, Prod.mk.injEq] at h
          rw [← h.2.1]
          exact inclMono_refl st
        | some vd =>
          simp only [hvl] at h
          cases hcp : copyPowersToEntcreate k
              { pch_entity_def := some edn, villain_def := some vd,
                power_refs := e.power_refs, resolved := e.resolved } st with
          | error er => rw [hcp] at h; exact absurd h (by simp)
          | ok pair =>
            obtain ⟨e2, st2⟩ := pair
            rw [hcp] at h
            simp only [Except.ok.injEq, Prod.mk.injEq] at h
            rw [← h.2.1]
            exact copy_inclMono hcp
  | power p =>
    simp only [processParam] at h
    by_cases hres : p.resolved
    · simp only [if_pos hres, Except.ok.injEq, Prod.mk.injEq] at h
      rw [← h.2.1]
      exact inclMono_refl st
    · simp only [if_neg hres] at h
      cases hfn : fn with
      | none => rw [hfn] at h; exact absurd h (by simp)
      | some f =>
        simp only [hfn] at h
        cases hmk : markPowersInPowerParam p f k archs st with
        | error er => rw [hmk] at h; exact absurd h (by simp)
        | ok st2 =>
          simp only [hmk, Except.ok.injEq, Prod.mk.injEq] at h
          rw [← h.2.1]
          exact foldE_inclMono _ (fun s x s' hs => by
            by_cases hx : x = f
            · rw [if_pos hx] at hs
              injection hs with hs
              exact hs ▸ inclMono_refl s
            · rw [if_neg hx] at hs
              exact mark_inclMono hs) _ _ _ hmk
  | otherParam =>
    simp only [processParam, Except.ok.injEq, Prod.mk.injEq] at h
    rw [← h.2.1]
    exact inclMono_refl st

theorem processTemplates_inclMono (k : NameKey) (fn : Option NameKey)
    (archs : List Nat) :
    ∀ (ts ts0 : List AttribModTemplate) (st0 : St) (c0 : Nat)
      (ts' : List AttribModTemplate) (st' : St) (c' : Nat),
    processTemplates k fn archs (ts0, st0, c0) ts = Except.ok (ts', st', c') →
    InclMono st0 st' := by
  intro ts
  induction ts with
  | nil =>
    intro ts0 st0 c0 ts' st' c' h
    simp only [processTemplates, Except.ok.injEq, Prod.mk.injEq] at h
    rw [← h.2.1]
    exact inclMono_refl st0
  | cons t rest ih =>
    intro ts0 st0 c0 ts' st' c' h
    simp only [processTemplates] at h
    cases hp : t.p_params with
    | none =>
      simp only [hp] at h
      exact ih (ts0 ++ [t]) st0 c0 ts' st' c' h
    | some pm =>
      simp only [hp] at h
      cases hpp : processParam k fn archs st0 pm with
      | error er => rw [hpp] at h; exact absurd h (by simp)
      | ok trip =>
        obtain ⟨pm', st1, n⟩ := trip
        rw [hpp] at h
        exact inclMono_trans (processParam_inclMono hpp)
          (ih (ts0 ++ [{ t with p_params := some pm' }]) st1 (c0 + n) ts' st' c' h)

theorem processEgroup_inclMono {k : NameKey} {fn : Option NameKey}
    {archs : List Nat} {st st2 : St} {c c2 : Nat} {gi : Nat}
    (h : processEgroup k fn archs (st, c) gi = Except.ok (st2, c2)) :
    InclMono st st2 := by
  simp only [processEgroup] at h
  cases hg : st.egroups[gi]? with
  | none =>
    simp only [hg, Except.ok.injEq, Prod.mk.injEq] at h
    rw [← h.1]
    exact inclMono_refl st
  | some g =>
    simp only [hg] at h
    cases hpt : processTemplates k fn archs ([], st, 0) g.pp_templates with
    | error er => rw [hpt] at h; exact absurd h (by simp)
    | ok trip =>
      obtain ⟨ts', st1, c1⟩ := trip
      rw [hpt] at h
      simp only [Except.ok.injEq, Prod.mk.injEq] at h
      rw [← h.1]
      exact processTemplates_inclMono k fn archs g.pp_templates [] st 0 ts' st1 c1 hpt

theorem resolve_entity_defs_inclMono {st st1 : St} {c1 : Nat}
    (h : resolve_entity_defs_and_power_grants st = Except.ok (st1, c1)) :
    InclMono st st1 := by
  unfold resolve_entity_defs_and_power_grants at h
  have := foldE_rel resolveStepEnt (fun a b : St × Nat => InclMono a.1 b.1)
    (fun a => inclMono_refl _) (fun a b c h1 h2 => inclMono_trans h1 h2)
    (fun s x s' hs => by
      obtain ⟨sa, ca⟩ := s
      simp only [resolveStepEnt] at hs
      cases hlk : lookupK sa.powers x with
      | none =>
        simp only [hlk] at hs
        injection hs with hs
        rw [← hs]
        exact inclMono_refl _
      | some p =>
        simp only [hlk] at hs
        by_cases hinc : p.include_in_output
        · simp only [hinc, if_true] at hs
          exact foldE_rel _ (fun a b : St × Nat => InclMono a.1 b.1)
            (fun a => inclMono_refl _) (fun a b c h1 h2 => inclMono_trans h1 h2)
            (fun s2 x2 s2' hs2 => by
              obtain ⟨sb, cb⟩ := s2
              obtain ⟨sc, cc⟩ := s2'
              exact processEgroup_inclMono hs2) p.pp_effects (sa, ca) s' hs
        · rw [Bool.not_eq_true] at hinc
          simp only [hinc, Bool.false_eq_true, if_false] at hs
          injection hs with hs
          rw [← hs]
          exact inclMono_refl _)
    (st.powers.map Prod.fst) (st, 0) (st1, c1) h
  exact this

theorem markRedirect_inclMono {k : NameKey} {archs : List Nat} {s s' : St}
    {rd : PowerRedirect} (h : markRedirect k archs s rd = Except.ok s') :
    InclMono s s' := by
  unfold markRedirect at h
  cases hn : rd.pch_name with
  | none =>
    rw [hn] at h
    injection h with h
    rw [← h]
    exact inclMono_refl _
  | some nm => rw [hn] at h; exact mark_inclMono h

theorem resolveStepRedir_inclMono {acc acc' : St × Nat} {k : NameKey}
    (hs : resolveStepRedir acc k = Except.ok acc') :
    InclMono acc.1 acc'.1 := by
  obtain ⟨sa, ca⟩ := acc
  simp only [resolveStepRedir] at hs
  cases hlk : lookupK sa.powers k with
  | none =>
    simp only [hlk] at hs
    injection hs with hs
    rw [← hs]
    exact inclMono_refl _
  | some p =>
    simp only [hlk] at hs
    by_cases hcond : p.include_in_output && !p.redirects_resolved
    · simp only [hcond, if_true] at hs
      cases hmk : foldE (markRedirect k p.archetypes) sa p.pp_redirect with
      | error er => rw [hmk] at hs; exact absurd hs (by simp)
      | ok stm =>
        rw [hmk] at hs
        injection hs with hs
        rw [← hs]
        dsimp only
        have hm : InclMono sa stm :=
          foldE_inclMono _ (fun s2 rd s2' hs2 => markRedirect_inclMono hs2) _ _ _ hmk
        refine inclMono_trans hm ⟨fun k2 c hl hv => ⟨c, hl, hv⟩,
          fun k2 s hl hv => ⟨s, hl, hv⟩, fun k2 p2 hl hv => ?_⟩
        exact lookup_mono_updateK (fun p => p.include_in_output) _ _ rrSet
          (fun v hvv => by
            show (rrSet v).include_in_output = true
            rw [rrSet_include]
            exact hvv) k2 p2 hl hv
    · rw [Bool.not_eq_true] at hcond
      simp only [hcond, Bool.false_eq_true, if_false] at hs
      injection hs with hs
      rw [← hs]
      exact inclMono_refl _

theorem resolve_power_redirects_inclMono {st st1 : St} {c1 : Nat}
    (h : resolve_power_redirects st = Except.ok (st1, c1)) :
    InclMono st st1 := by
  unfold resolve_power_redirects at h
  exact foldE_rel resolveStepRedir (fun a b : St × Nat => InclMono a.1 b.1)
    (fun a => inclMono_refl _) (fun a b c h1 h2 => inclMono_trans h1 h2)
    (fun s x s' hs => resolveStepRedir_inclMono hs)
    (st.powers.map Prod.fst) (st, 0) (st1, c1) h

theorem fixPowerRules_include {cn : String} {pw pw' : BasePower}
    (h : fixPowerRules cn pw = Except.ok pw') :
    pw'.include_in_output = pw.include_in_output := by
  unfold fixPowerRules at h
  cases hn : pw.pch_name with
  | none => rw [hn] at h; exact absurd h (by simp)
  | some pname =>
    rw [hn] at h
    simp only at h
    split at h
    · split at h <;>
        (injection h with h; rw [← h]; (repeat' split) <;> rfl)
    · injection h with h
      rw [← h]
      (repeat' split) <;> rfl

theorem fixCatStep_inclMono {st st' : St} {ck : NameKey}
    (h : fixCatStep st ck = Except.ok st') : InclMono st st' := by
  unfold fixCatStep at h
  cases hlk : lookupK st.powerCats ck with
  | none =>
    simp only [hlk] at h
    injection h with h
    rw [← h]
    exact inclMono_refl _
  | some c =>
    simp only [hlk] at h
    by_cases htl : c.top_level
    · simp only [htl, if_true] at h
      cases hn : c.pch_name with
      | none => rw [hn] at h; exact absurd h (by simp)
      | some cname =>
        simp only [hn] at h
        refine foldE_inclMono _ (fun s sk s2 hs => ?_) _ _ _ h
        cases hls : lookupK s.powerSets sk with
        | none =>
          simp only [hls] at hs
          injection hs with hs
          rw [← hs]
          exact inclMono_refl _
        | some ps =>
          simp only [hls] at hs
          refine foldE_inclMono _ (fun s3 pk s4 hs3 => ?_) _ _ _ hs
          cases hlp : lookupK s3.powers pk with
          | none =>
            simp only [hlp] at hs3
            injection hs3 with hs3
            rw [← hs3]
            exact inclMono_refl _
          | some pw =>
            simp only [hlp] at hs3
            cases hfx : fixPowerRules cname pw with
            | error er => rw [hfx] at hs3; exact absurd hs3 (by simp)
            | ok pw' =>
              rw [hfx] at hs3
              injection hs3 with hs3
              rw [← hs3]
              refine ⟨fun k x hl hv => ⟨x, hl, hv⟩, fun k x hl hv => ⟨x, hl, hv⟩,
                fun k p2 hl hv => ?_⟩
              rw [lookupK_updateK]
              by_cases hk : k = pk
              · subst hk
                rw [if_pos rfl, hl]
                rw [hl] at hlp
                injection hlp with hlp
                refine ⟨pw', rfl, ?_⟩
                rw [fixPowerRules_include hfx, ← hlp]
                exact hv
              · rw [if_neg hk, hl]
                exact ⟨p2, rfl, hv⟩
    · rw [Bool.not_eq_true] at htl
      simp only [htl, Bool.false_eq_true, if_false] at h
      injection h with h
      rw [← h]
      exact inclMono_refl _

theorem fix_data_inclMono {cks : List NameKey} {st st' : St}
    (h : fix_data_in_power_hierarchy cks st = Except.ok st') :
    InclMono st st' :=
  foldE_inclMono _ (fun s x s' hs => fixCatStep_inclMono hs) _ _ _ h

/-- Absence of any set flag: the state right after loading, before the
default-inclusion cascade. -/
def InclFalse (st : St) : Prop :=
  (∀ k c, lookupK st.powerCats k = some c → c.include_in_output = false) ∧
  (∀ k s0, lookupK st.powerSets k = some s0 → s0.include_in_output = false) ∧
  (∀ k p, lookupK st.powers k = some p → p.include_in_output = false)

/-- C2: `include_in_output` is monotonic non-decreasing for every category,
set and power during the whole run: starting from the all-false state after
loading, the default-inclusion cascade cannot lose a set flag (nothing is
set yet), and `mark_power_for_inclusion`,
`resolve_entity_defs_and_power_grants`, `resolve_power_redirects` and the
final `fix_data_in_power_hierarchy` never change a flag from true to
false. -/
theorem c2_include_in_output_monotone :
    (∀ (st : St) (cks : List NameKey), InclFalse st →
      InclMono st (cascadeIncludeTopLevel cks st)) ∧
    (∀ (b : Option NameKey) (r : NameKey) (a : List Nat) (st st' : St),
      markPowerForInclusion b r a st = Except.ok st' → InclMono st st') ∧
    (∀ (st st' : St) (c : Nat),
      resolve_entity_defs_and_power_grants st = Except.ok (st', c) →
      InclMono st st') ∧
    (∀ (st st' : St) (c : Nat),
      resolve_power_redirects st = Except.ok (st', c) → InclMono st st') ∧
    (∀ (cks : List NameKey) (st st' : St),
      fix_data_in_power_hierarchy cks st = Except.ok st' → InclMono st st') := by
  refine ⟨?_, ?_, ?_, ?_, ?_⟩
  · intro st cks hfalse
    refine ⟨fun k c hl hv => ?_, fun k s hl hv => ?_, fun k p hl hv => ?_⟩
    · exact absurd hv (by rw [hfalse.1 k c hl]; simp)
    · exact absurd hv (by rw [hfalse.2.1 k s hl]; simp)
    · exact absurd hv (by rw [hfalse.2.2 k p hl]; simp)
  · intro b r a st st' h
    exact mark_inclMono h
  · intro st st' c h
    exact resolve_entity_defs_inclMono h
  · intro st st' c h
    exact resolve_power_redirects_inclMono h
  · intro cks st st' h
    exact fix_data_inclMono h

theorem c2_include_in_output_monotone_witness :
    InclMono ({} : St) (cascadeIncludeTopLevel [] ({} : St)) ∧
    InclMono ({} : St) ({} : St) := by
  obtain ⟨h1, h2, h3, h4, h5⟩ := c2_include_in_output_monotone
  have hfalse : InclFalse ({} : St) :=
    ⟨fun k c h => absurd h (by simp), fun k s h => absurd h (by simp),
     fun k p h => absurd h (by simp)⟩
  refine ⟨h1 {} [] hfalse, ?_⟩
  have ha := h2 none ("Cat.Set.P") [] {} {} rfl
  have hb := h3 {} {} 0 rfl
  have hc := h4 {} {} 0 rfl
  have hd := h5 [] {} {} rfl
  exact inclMono_trans (inclMono_trans ha hb) (inclMono_trans hc hd)

/-! Archetype-merge lemmas and the specification of
`mark_power_for_inclusion`. -/

theorem mem_mergeArchetypes (old new : List Nat) (a : Nat) :
    a ∈ mergeArchetypes old new ↔ a ∈ old ∨ a ∈ new := by
  induction new generalizing old with
  | nil => simp [mergeArchetypes]
  | cons x xs ih =>
    unfold mergeArchetypes at ih ⊢
    simp only [List.foldl_cons]
    rw [ih]
    by_cases hx : x ∈ old
    · rw [if_pos hx]
      constructor
      · rintro (h | h)
        · exact Or.inl h
        · exact Or.inr (List.mem_cons_of_mem x h)
      · rintro (h | h)
        · exact Or.inl h
        · rcases List.mem_cons.mp h with h | h
          · exact Or.inl (h ▸ hx)
          · exact Or.inr h
    · rw [if_neg hx]
      constructor
      · rintro (h | h)
        · rcases List.mem_append.mp h with h | h
          · exact Or.inl h
          · simp only [List.mem_singleton] at h
            exact Or.inr (h ▸ List.mem_cons_self x xs)
        · exact Or.inr (List.mem_cons_of_mem x h)
      · rintro (h | h)
        · exact Or.inl (List.mem_append.mpr (Or.inl h))
        · rcases List.mem_cons.mp h with h | h
          · exact Or.inl (List.mem_append.mpr (Or.inr (by simp [h])))
          · exact Or.inr h

theorem nodup_mergeArchetypes (old new : List Nat) (h : old.Nodup) :
    (mergeArchetypes old new).Nodup := by
  induction new generalizing old with
  | nil => exact h
  | cons x xs ih =>
    unfold mergeArchetypes at ih ⊢
    simp only [List.foldl_cons]
    by_cases hx : x ∈ old
    · rw [if_pos hx]
      exact ih old h
    · rw [if_neg hx]
      refine ih (old ++ [x]) ?_
      rw [List.nodup_append]
      exact ⟨h, List.nodup_singleton x, by
        intro a ha hb
        simp only [List.mem_singleton] at hb
        exact hx (hb ▸ ha)⟩

/-- C6: for a three-segment power reference, `mark_power_for_inclusion`
(with no conflicting outstanding borrow) succeeds and marks
`include_in_output` on the category named by the first segment, the set
named by the first two segments, and the power named by the full key, each
independently of the other levels' lookup results; when the power is found,
its archetype list afterwards contains exactly the old entries plus the
inheriting ones (pointer identity = arena id), and no identity-duplicate is
introduced (Nodup is preserved); when the power is missing the power table
is untouched. -/
theorem c6_mark_power_for_inclusion_spec {r : NameKey} {archs : List Nat}
    {st : St} (h3 : (segmentsOf r).length = 3) :
    ∃ st', markPowerForInclusion none r archs st = Except.ok st' ∧
      (∀ c, lookupK st.powerCats ((segmentsOf r).headD ("")) = some c →
        ∃ c', lookupK st'.powerCats ((segmentsOf r).headD ("")) = some c' ∧
          c'.include_in_output = true) ∧
      (∀ s0, lookupK st.powerSets
          (((segmentsOf r).headD ("")) ++ sepDot ++
            (((segmentsOf r)[1]?).getD (""))) = some s0 →
        ∃ s1, lookupK st'.powerSets
          (((segmentsOf r).headD ("")) ++ sepDot ++
            (((segmentsOf r)[1]?).getD (""))) = some s1 ∧
          s1.include_in_output = true) ∧
      (∀ p, lookupK st.powers r = some p →
        ∃ p', lookupK st'.powers r = some p' ∧ p'.include_in_output = true ∧
          (∀ a, a ∈ p'.archetypes ↔ a ∈ p.archetypes ∨ a ∈ archs) ∧
          (p.archetypes.Nodup → p'.archetypes.Nodup)) ∧
      (lookupK st.powers r = none → st'.powers = st.powers) := by
  have hlt : 1 < (segmentsOf r).length := by omega
  have hp1 : (segmentsOf r)[1]? = some ((segmentsOf r).get ⟨1, hlt⟩) :=
    List.getElem?_eq_getElem hlt
  unfold markPowerForInclusion
  rw [hp1]
  simp only [Option.getD_some]
  cases hlk : lookupK st.powers r with
  | none =>
    refine ⟨_, rfl, ?_, ?_, ?_, ?_⟩
    · intro c hl
      refine ⟨inclCat c, ?_, rfl⟩
      rw [lookupK_updateK, if_pos rfl, hl]
      rfl
    · intro s0 hl
      refine ⟨inclSet s0, ?_, rfl⟩
      rw [lookupK_updateK, if_pos rfl, hl]
      rfl
    · intro p hl
      exact absurd hl (by simp)
    · intro _
      rfl
  | some pw =>
    rw [if_neg (by simp : ¬ (none : Option NameKey) = some r)]
    refine ⟨_, rfl, ?_, ?_, ?_, ?_⟩
    · intro c hl
      refine ⟨inclCat c, ?_, rfl⟩
      rw [lookupK_updateK, if_pos rfl, hl]
      rfl
    · intro s0 hl
      refine ⟨inclSet s0, ?_, rfl⟩
      rw [lookupK_updateK, if_pos rfl, hl]
      rfl
    · intro p hl
      injection hl with hl
      subst hl
      refine ⟨inclArch archs pw, ?_, rfl, ?_, ?_⟩
      · rw [lookupK_updateK, if_pos rfl, hlk]
        rfl
      · intro a
        simp only [inclArch_archetypes]
        exact mem_mergeArchetypes pw.archetypes archs a
      · intro hnd
        simp only [inclArch_archetypes]
        exact nodup_mergeArchetypes pw.archetypes archs hnd
    · intro hnone
      exact absurd hnone (by simp)

/-- Concrete state used to witness C6. -/
def c6St : St :=
  { powerCats := [("A", { pch_name := some ("A") })],
    powerSets := [("A.B", {})],
    powers := [("A.B.C", { archetypes := [5] })] }

theorem c6_mark_power_for_inclusion_spec_witness :
    ∃ st', markPowerForInclusion none ("A.B.C") [5, 7] c6St = Except.ok st' ∧
      (∀ c, lookupK c6St.powerCats ((segmentsOf ("A.B.C")).headD ("")) = some c →
        ∃ c', lookupK st'.powerCats ((segmentsOf ("A.B.C")).headD ("")) = some c' ∧
          c'.include_in_output = true) ∧
      (∀ s0, lookupK c6St.powerSets
          (((segmentsOf ("A.B.C")).headD ("")) ++ sepDot ++
            (((segmentsOf ("A.B.C"))[1]?).getD (""))) = some s0 →
        ∃ s1, lookupK st'.powerSets
          (((segmentsOf ("A.B.C")).headD ("")) ++ sepDot ++
            (((segmentsOf ("A.B.C"))[1]?).getD (""))) = some s1 ∧
          s1.include_in_output = true) ∧
      (∀ p, lookupK c6St.powers ("A.B.C") = some p →
        ∃ p', lookupK st'.powers ("A.B.C") = some p' ∧
          p'.include_in_output = true ∧
          (∀ a, a ∈ p'.archetypes ↔ a ∈ p.archetypes ∨ a ∈ [5, 7]) ∧
          (p.archetypes.Nodup → p'.archetypes.Nodup)) ∧
      (lookupK c6St.powers ("A.B.C") = none → st'.powers = c6St.powers) :=
  @c6_mark_power_for_inclusion_spec ("A.B.C") [5, 7] c6St (by decide)

/-! Dangling redirect targets (C7) and the self-redirect double borrow
(C10). -/

theorem mark_absent_ok {b : Option NameKey} {r : NameKey} {a : List Nat}
    {st : St} (h3 : (segmentsOf r).length = 3)
    (habs : lookupK st.powers r = none) :
    ∃ st', markPowerForInclusion b r a st = Except.ok st' ∧
      st'.powers = st.powers := by
  have hlt : 1 < (segmentsOf r).length := by omega
  have hp1 : (segmentsOf r)[1]? = some ((segmentsOf r).get ⟨1, hlt⟩) :=
    List.getElem?_eq_getElem hlt
  unfold markPowerForInclusion
  rw [hp1]
  simp only
  rw [habs]
  exact ⟨_, rfl, rfl⟩

theorem markRedirects_dangling (k : NameKey) (archs : List Nat) :
    ∀ (rds : List PowerRedirect) (st : St),
    (∀ rd ∈ rds, ∀ nm, rd.pch_name = some nm →
      (segmentsOf nm).length = 3 ∧ lookupK st.powers nm = none) →
    ∃ st', foldE (markRedirect k archs) st rds = Except.ok st' ∧
      st'.powers = st.powers := by
  intro rds
  induction rds with
  | nil => exact fun st _ => ⟨st, rfl, rfl⟩
  | cons rd rest ih =>
    intro st hdang
    cases hn : rd.pch_name with
    | none =>
      obtain ⟨st', hfold, hpws⟩ := ih st (fun rd' hm nm hnm =>
        hdang rd' (List.mem_cons_of_mem rd hm) nm hnm)
      refine ⟨st', ?_, hpws⟩
      simp only [foldE, markRedirect, hn]
      exact hfold
    | some nm =>
      obtain ⟨h3, habs⟩ := hdang rd (List.mem_cons_self rd rest) nm hn
      obtain ⟨st1, hmk, hpws1⟩ := @mark_absent_ok (some k) nm archs st h3 habs
      have hdang1 : ∀ rd' ∈ rest, ∀ nm', rd'.pch_name = some nm' →
          (segmentsOf nm').length = 3 ∧ lookupK st1.powers nm' = none := by
        intro rd' hm nm' hnm
        obtain ⟨h3', habs'⟩ := hdang rd' (List.mem_cons_of_mem rd hm) nm' hnm
        rw [hpws1]
        exact ⟨h3', habs'⟩
      obtain ⟨st', hfold, hpws⟩ := ih st1 hdang1
      refine ⟨st', ?_, hpws.trans hpws1⟩
      simp only [foldE, markRedirect, hn, hmk]
      exact hfold

/-- C7: a power whose redirect entries all name three-segment keys absent
from the power table is processed by `resolve_power_redirects` without any
error: its own `include_in_output` is left unchanged and its
`redirects_resolved` latch is still set (the dangling references are
silently skipped). -/
theorem c7_dangling_redirect_tolerated {st : St} {c : Nat} {k : NameKey}
    {p : BasePower} (hlk : lookupK st.powers k = some p)
    (hinc : p.include_in_output = true) (hrr : p.redirects_resolved = false)
    (hdang : ∀ rd ∈ p.pp_redirect, ∀ nm, rd.pch_name = some nm →
      (segmentsOf nm).length = 3 ∧ lookupK st.powers nm = none) :
    ∃ st', resolveStepRedir (st, c) k = Except.ok (st', c + 1) ∧
      ∃ p', lookupK st'.powers k = some p' ∧
        p'.include_in_output = p.include_in_output ∧
        p'.redirects_resolved = true := by
  obtain ⟨st1, hfold, hpws1⟩ := markRedirects_dangling k p.archetypes p.pp_redirect st hdang
  have hcond : (p.include_in_output && !p.redirects_resolved) = true := by
    rw [hinc, hrr]
    rfl
  refine ⟨{ st1 with powers := updateK st1.powers k rrSet }, ?_, ?_⟩
  · simp only [resolveStepRedir, hlk, hcond, if_true]
    rw [hfold]
  · refine ⟨rrSet p, ?_, by rw [rrSet_include, hinc], rfl⟩
    show lookupK (updateK st1.powers k rrSet) k = some (rrSet p)
    rw [lookupK_updateK, if_pos rfl, hpws1, hlk]
    rfl

/-- Concrete state used to witness C7: an included power with a single
dangling three-segment redirect target. -/
def c7St : St :=
  { powers := [("A.B.C",
      { pch_full_name := some ("A.B.C"), include_in_output := true,
        pp_redirect := [{ pch_name := some ("X.Y.Z") }] })] }

theorem c7_dangling_redirect_tolerated_witness :
    ∃ st', resolveStepRedir (c7St, 0) ("A.B.C") = Except.ok (st', 0 + 1) ∧
      ∃ p', lookupK st'.powers ("A.B.C") = some p' ∧
        p'.include_in_output =
          ({ pch_full_name := some ("A.B.C"), include_in_output := true,
             pp_redirect := [{ pch_name := some ("X.Y.Z") }] } :
            BasePower).include_in_output ∧
        p'.redirects_resolved = true := by
  refine @c7_dangling_redirect_tolerated c7St 0 ("A.B.C") _ (by rfl) (by rfl) (by rfl) ?_
  intro rd hrd nm hnm
  rw [List.mem_singleton] at hrd
  subst hrd
  injection hnm with hnm
  subst hnm
  exact ⟨by decide, by rfl⟩

/-- Projection of the power table to the fields read by the redirect pass
about other powers: the `redirects_resolved` latch and the redirect list. -/
def powsRDR (st : St) : List (NameKey × (Bool × List PowerRedirect)) :=
  st.powers.map (fun kp => (kp.1, (kp.2.redirects_resolved, kp.2.pp_redirect)))

theorem mark_powsRDR {b : Option NameKey} {r : NameKey} {a : List Nat}
    {st st' : St} (h : markPowerForInclusion b r a st = Except.ok st') :
    powsRDR st' = powsRDR st := by
  obtain ⟨p1, _, _, _, hpws, _, _, _⟩ := mark_ok_shape h
  cases hpws with
  | inl hsame => unfold powsRDR; rw [hsame]
  | inr hupd =>
    unfold powsRDR
    rw [hupd]
    exact mapProj_updateK (fun (q : BasePower) => (q.redirects_resolved, q.pp_redirect))
      st.powers r (inclArch a) (fun v => rfl)

theorem markRedirects_powsRDR {k : NameKey} {archs : List Nat}
    {rds : List PowerRedirect} {st st' : St}
    (h : foldE (markRedirect k archs) st rds = Except.ok st') :
    powsRDR st' = powsRDR st := by
  refine foldE_rel _ (fun a b : St => powsRDR b = powsRDR a) (fun a => rfl)
    (fun a b c h1 h2 => h2.trans h1) ?_ rds st st' h
  intro s rd s' hs
  unfold markRedirect at hs
  cases hn : rd.pch_name with
  | none =>
    rw [hn] at hs
    injection hs with hs
    rw [← hs]
  | some nm => rw [hn] at hs; exact mark_powsRDR hs

theorem mark_self_borrow_err {k : NameKey} {archs : List Nat} {st : St}
    (hpres : (lookupK st.powers k).isSome = true) :
    ∃ e, markPowerForInclusion (some k) k archs st = Except.error e := by
  unfold markPowerForInclusion
  cases hp1 : (segmentsOf k)[1]? with
  | none => exact ⟨Panic.indexOOB, rfl⟩
  | some p1 =>
    simp only
    cases hlk : lookupK st.powers k with
    | none => rw [hlk] at hpres; exact absurd hpres (by simp)
    | some pw =>
      exact ⟨Panic.doubleBorrow, by simp⟩

theorem markRedirects_self_err (k : NameKey) (archs : List Nat) :
    ∀ (rds : List PowerRedirect) (st : St),
    (lookupK st.powers k).isSome = true →
    (∃ rd ∈ rds, rd.pch_name = some k) →
    ∃ e, foldE (markRedirect k archs) st rds = Except.error e := by
  intro rds
  induction rds with
  | nil =>
    intro st _ hself
    obtain ⟨rd, hm, _⟩ := hself
    exact absurd hm (List.not_mem_nil rd)
  | cons rd rest ih =>
    intro st hpres hself
    cases hn : rd.pch_name with
    | none =>
      have hself' : ∃ rd' ∈ rest, rd'.pch_name = some k := by
        obtain ⟨rd', hm, hn'⟩ := hself
        cases List.mem_cons.mp hm with
        | inl he => rw [he, hn] at hn'; cases hn'
        | inr hm' => exact ⟨rd', hm', hn'⟩
      obtain ⟨e, he⟩ := ih st hpres hself'
      refine ⟨e, ?_⟩
      simp only [foldE, markRedirect, hn]
      exact he
    | some nm =>
      cases hmk : markPowerForInclusion (some k) nm archs st with
      | error e =>
        refine ⟨e, ?_⟩
        simp only [foldE, markRedirect, hn, hmk]
      | ok st1 =>
        have hpres1 : (lookupK st1.powers k).isSome = true := by
          rw [lookupK_isSome_iff] at hpres ⊢
          obtain ⟨_, _, _, _, hpws, _, _, _⟩ := mark_ok_shape hmk
          cases hpws with
          | inl hsame => rw [hsame]; exact hpres
          | inr hupd => rw [hupd, updateK_map_fst]; exact hpres
        by_cases hk : nm = k
        · subst hk
          obtain ⟨e, he⟩ := @mark_self_borrow_err _ archs _ hpres
          rw [he] at hmk
          cases hmk
        · have hself' : ∃ rd' ∈ rest, rd'.pch_name = some k := by
            obtain ⟨rd', hm, hn'⟩ := hself
            cases List.mem_cons.mp hm with
            | inl he =>
              rw [he, hn] at hn'
              injection hn' with hn'
              exact absurd hn' hk
            | inr hm' => exact ⟨rd', hm', hn'⟩
          obtain ⟨e, he⟩ := ih st1 hpres1 hself'
          refine ⟨e, ?_⟩
          simp only [foldE, markRedirect, hn, hmk]
          exact he

theorem resolveStepRedir_self_err {st : St} {c : Nat} {k : NameKey}
    {p : BasePower} (hlk : lookupK st.powers k = some p)
    (hinc : p.include_in_output = true) (hrr : p.redirects_resolved = false)
    (hself : ∃ rd ∈ p.pp_redirect, rd.pch_name = some k) :
    ∃ e, resolveStepRedir (st, c) k = Except.error e := by
  have hcond : (p.include_in_output && !p.redirects_resolved) = true := by
    rw [hinc, hrr]
    rfl
  obtain ⟨e, he⟩ := markRedirects_self_err k p.archetypes p.pp_redirect st
    (by
      rw [hlk]
      rfl) hself
  refine ⟨e, ?_⟩
  simp only [resolveStepRedir, hlk, hcond, if_true]
  rw [he]

theorem resolveStepRedir_other {st st1 : St} {c c1 : Nat} {k' k : NameKey}
    (h : resolveStepRedir (st, c) k' = Except.ok (st1, c1)) (hne : k ≠ k') :
    lookupK (powsRDR st1) k = lookupK (powsRDR st) k := by
  simp only [resolveStepRedir] at h
  cases hlk : lookupK st.powers k' with
  | none =>
    simp only [hlk] at h
    injection h with h
    have h1 : st = st1 := congrArg Prod.fst h
    rw [h1]
  | some p =>
    simp only [hlk] at h
    by_cases hcond : p.include_in_output && !p.redirects_resolved
    · simp only [hcond, if_true] at h
      cases hmk : foldE (markRedirect k' p.archetypes) st p.pp_redirect with
      | error er => rw [hmk] at h; exact absurd h (by simp)
      | ok stm =>
        rw [hmk] at h
        simp only [Except.ok.injEq, Prod.mk.injEq] at h
        rw [← h.1]
        have hm := markRedirects_powsRDR hmk
        show lookupK (powsRDR { stm with powers := updateK stm.powers k' rrSet }) k =
          lookupK (powsRDR st) k
        unfold powsRDR at hm ⊢
        rw [← hm]
        rw [lookupK_map_proj (fun (q : BasePower) =>
              (q.redirects_resolved, q.pp_redirect)) (updateK stm.powers k' rrSet) k,
            lookupK_map_proj (fun (q : BasePower) =>
              (q.redirects_resolved, q.pp_redirect)) stm.powers k,
            lookupK_updateK, if_neg hne]
    · rw [Bool.not_eq_true] at hcond
      simp only [hcond, Bool.false_eq_true, if_false] at h
      injection h with h
      have h1 : st = st1 := congrArg Prod.fst h
      rw [h1]

theorem redirPass_self_err_aux (k : NameKey) :
    ∀ (l : List NameKey) (st : St) (c : Nat),
    (∃ p, lookupK st.powers k = some p ∧ p.include_in_output = true ∧
      p.redirects_resolved = false ∧
      ∃ rd ∈ p.pp_redirect, rd.pch_name = some k) →
    k ∈ l →
    ∃ e, foldE resolveStepRedir (st, c) l = Except.error e := by
  intro l
  induction l with
  | nil => intro st c _ hmem; exact absurd hmem (List.not_mem_nil k)
  | cons k' rest ih =>
    intro st c hp hmem
    obtain ⟨p, hlk, hinc, hrr, hself⟩ := hp
    by_cases hk : k' = k
    · subst hk
      obtain ⟨e, he⟩ := resolveStepRedir_self_err hlk hinc hrr hself
      refine ⟨e, ?_⟩
      unfold foldE
      rw [he]
    · cases hstep : resolveStepRedir (st, c) k' with
      | error e =>
        refine ⟨e, ?_⟩
        unfold foldE
        rw [hstep]
      | ok acc1 =>
        obtain ⟨st1, c1⟩ := acc1
        have hmono := resolveStepRedir_inclMono hstep
        obtain ⟨p1, hlk1, hinc1⟩ := hmono.2.2 k p hlk hinc
        have hproj := resolveStepRedir_other hstep (fun he => hk he.symm)
        unfold powsRDR at hproj
        rw [lookupK_map_proj (fun (q : BasePower) =>
              (q.redirects_resolved, q.pp_redirect)) st1.powers k,
            lookupK_map_proj (fun (q : BasePower) =>
              (q.redirects_resolved, q.pp_redirect)) st.powers k,
            hlk1, hlk] at hproj
        injection hproj with hproj
        have hrr1 : p1.redirects_resolved = false := by
          have := congrArg Prod.fst hproj
          simp only at this
          rw [this, hrr]
        have hrd1 : p1.pp_redirect = p.pp_redirect := by
          have := congrArg Prod.snd hproj
          simpa using this
        have hmem' : k ∈ rest := by
          cases List.mem_cons.mp hmem with
          | inl he => exact absurd he.symm hk
          | inr hm => exact hm
        obtain ⟨e, he⟩ := ih st1 c1
          ⟨p1, hlk1, hinc1, hrr1, by rw [hrd1]; exact hself⟩ hmem'
        refine ⟨e, ?_⟩
        unfold foldE
        rw [hstep]
        exact he

/-- C10: `resolve_power_redirects` is panic-free only when no included,
not-yet-resolved power carries a redirect entry naming that power's own
table key: the loop holds a mutable borrow of the source power's cell while
`mark_power_for_inclusion` re-borrows the same cell, so any state violating
the precondition makes the pass abort with a panic.  (The Power-param path
of the entity-def resolver is guarded against self references; the redirect
path has no such guard.) -/
theorem c10_self_redirect_panics {st : St}
    (h : ∃ k p, lookupK st.powers k = some p ∧ p.include_in_output = true ∧
      p.redirects_resolved = false ∧
      ∃ rd ∈ p.pp_redirect, rd.pch_name = some k) :
    ∃ e, resolve_power_redirects st = Except.error e := by
  obtain ⟨k, p, hlk, hinc, hrr, hself⟩ := h
  unfold resolve_power_redirects
  refine redirPass_self_err_aux k (st.powers.map Prod.fst) st 0
    ⟨p, hlk, hinc, hrr, hself⟩ ?_
  rw [← lookupK_isSome_iff, hlk]
  rfl

/-- Concrete state used to witness C10: an included, unresolved power whose
redirect names its own key. -/
def c10St : St :=
  { powers := [("A.B.C",
      { pch_full_name := some ("A.B.C"), include_in_output := true,
        pp_redirect := [{ pch_name := some ("A.B.C") }] })] }

theorem c10_self_redirect_panics_witness :
    ∃ e, resolve_power_redirects c10St = Except.error e :=
  @c10_self_redirect_panics c10St
    ⟨("A.B.C"),
     { pch_full_name := some ("A.B.C"), include_in_output := true,
       pp_redirect := [{ pch_name := some ("A.B.C") }] },
     by rfl, rfl, rfl,
     ⟨{ pch_name := some ("A.B.C") }, List.mem_singleton_self _, rfl⟩⟩

/-! Allow-list filtering of `read_powercats_bin` (C3). -/

/-- Test from src/load.rs lines 571-575: does the category's name match any
allow-list entry? -/
def allowMatch (configCats : List NameKey) (c : PowerCategory) : Bool :=
  match c.pch_name with
  | some n => configCats.any (fun f => f = n)
  | none => false

/-- Per-entry effect of the allow-list pass: mark `top_level` when the name
matches. -/
def allowMark (configCats : List NameKey) (kv : NameKey × PowerCategory) :
    NameKey × PowerCategory :=
  if allowMatch configCats kv.2 then (kv.1, { kv.2 with top_level := true })
  else kv

theorem readPowercats_fold_char (configCats : List NameKey) :
    ∀ (cats acc : List (NameKey × PowerCategory)),
    (∀ kv ∈ cats, (kv.2 : PowerCategory).pch_name.isSome = true) →
    foldE (allowStep configCats) acc cats =
      Except.ok (acc ++ cats.map (allowMark configCats)) := by
  intro cats
  induction cats with
  | nil => intro acc _; simp [foldE]
  | cons kv rest ih =>
    intro acc hnames
    have hh := hnames kv (List.mem_cons_self kv rest)
    cases hn : (kv.2 : PowerCategory).pch_name with
    | none => rw [hn] at hh; exact absurd hh (by simp)
    | some n =>
      have hrest := fun kv' hm => hnames kv' (List.mem_cons_of_mem kv hm)
      have hav : allowStep configCats acc kv =
          Except.ok (acc ++ [allowMark configCats kv]) := by
        unfold allowStep allowMark allowMatch
        simp only [hn]
        by_cases hmatch : configCats.any (fun f => f = n)
        · rw [if_pos hmatch, if_pos hmatch]
        · rw [if_neg hmatch, if_neg hmatch]
      simp only [foldE, hav]
      rw [ih (acc ++ [allowMark configCats kv]) hrest]
      simp

/-- C3: with a non-empty top-level-category allow-list, if no loaded
category's name matches any entry then the process exits immediately with a
non-zero status and a diagnostic message; if at least one matches, loading
proceeds and exactly the matching categories are marked `top_level`. -/
theorem c3_allowlist_filtering {configCats : List NameKey}
    {cats : List (NameKey × PowerCategory)}
    (hne : configCats.length ≠ 0)
    (hnames : ∀ kv ∈ cats, (kv.2 : PowerCategory).pch_name.isSome = true)
    (hinit : ∀ kv ∈ cats, (kv.2 : PowerCategory).top_level = false) :
    ((∀ kv ∈ cats, allowMatch configCats kv.2 = false) →
      ∃ code msg, read_powercats_bin_filter configCats cats =
        Except.error (Panic.exitCode code msg) ∧ code ≠ 0 ∧ msg ≠ ("")) ∧
    ((∃ kv ∈ cats, allowMatch configCats kv.2 = true) →
      read_powercats_bin_filter configCats cats =
        Except.ok (cats.map (allowMark configCats)) ∧
      ∀ kv ∈ cats, ((allowMark configCats kv).2.top_level = true ↔
        allowMatch configCats kv.2 = true)) := by
  have hmark : ∀ kv ∈ cats, ((allowMark configCats kv).2.top_level = true ↔
      allowMatch configCats kv.2 = true) := by
    intro kv hm
    unfold allowMark
    by_cases hmt : allowMatch configCats kv.2
    · rw [if_pos hmt]
      simp [hmt]
    · rw [if_neg hmt]
      have := hinit kv hm
      rw [Bool.not_eq_true] at hmt
      simp [this, hmt]
  have hfold := readPowercats_fold_char configCats cats [] hnames
  simp only [List.nil_append] at hfold
  constructor
  · intro hnomatch
    refine ⟨1, ("No power categories to work on. Did you filter them all?"),
      ?_, by omega, by simp⟩
    unfold read_powercats_bin_filter
    rw [if_neg hne, hfold]
    simp only
    have hcnt : ((cats.map (allowMark configCats)).filter
        (fun kv => kv.2.top_level)).length = 0 := by
      rw [List.length_eq_zero, List.filter_eq_nil]
      intro kv hm
      obtain ⟨kv0, hm0, hkv0⟩ := List.mem_map.mp hm
      rw [← hkv0]
      intro hcontra
      have := (hmark kv0 hm0).mp (by simpa using hcontra)
      rw [hnomatch kv0 hm0] at this
      cases this
    rw [if_pos hcnt]
  · intro hsome
    refine ⟨?_, hmark⟩
    unfold read_powercats_bin_filter
    rw [if_neg hne, hfold]
    simp only
    have hcnt : ((cats.map (allowMark configCats)).filter
        (fun kv => kv.2.top_level)).length ≠ 0 := by
      obtain ⟨kv, hm, hmt⟩ := hsome
      have hmem : allowMark configCats kv ∈
          (cats.map (allowMark configCats)).filter (fun kv => kv.2.top_level) := by
        rw [List.mem_filter]
        exact ⟨List.mem_map.mpr ⟨kv, hm, rfl⟩, (hmark kv hm).mpr hmt⟩
      intro hlen
      rw [List.length_eq_zero] at hlen
      rw [hlen] at hmem
      exact absurd hmem (List.not_mem_nil _)
    rw [if_neg hcnt]

/-- Concrete inputs used to witness C3: a two-category table and the
allow-list either missing both names or matching one of them. -/
def c3Cats : List (NameKey × PowerCategory) :=
  [("Pool", { pch_name := some ("Pool") }), ("Epic", { pch_name := some ("Epic") })]

theorem c3_allowlist_filtering_witness :
    (∃ code msg, read_powercats_bin_filter [("Gone")] c3Cats =
      Except.error (Panic.exitCode code msg) ∧ code ≠ 0 ∧ msg ≠ ("")) ∧
    (read_powercats_bin_filter [("Pool")] c3Cats =
      Except.ok (c3Cats.map (allowMark [("Pool")])) ∧
      ∀ kv ∈ c3Cats, ((allowMark [("Pool")] kv).2.top_level = true ↔
        allowMatch [("Pool")] kv.2 = true)) :=
  ⟨(@c3_allowlist_filtering [("Gone")] c3Cats (by decide) (by decide) (by decide)).1
      (by decide),
   (@c3_allowlist_filtering [("Pool")] c3Cats (by decide) (by decide) (by decide)).2
      (by decide)⟩

/-! Archetype-to-category matching and duplicate references (C8). -/

/-- Number of routes through which archetype `a` can be matched to the
category keyed `k`: the four slot references plus the configured global
list (src/load.rs lines 54-108). -/
def routeCount (globals : List NameKey) (a : Archetype) (k : NameKey) : Nat :=
  (if a.pch_primary_category = some k then 1 else 0) +
  (if a.pch_secondary_category = some k then 1 else 0) +
  (if a.pch_epic_pool_category = some k then 1 else 0) +
  (if a.pch_power_pool_category = some k then 1 else 0) +
  (globals.filter (fun g => g = k)).length

theorem matchOne_shape {cats cats' : List (NameKey × PowerCategory)}
    {a : Archetype} {slot : Option NameKey} {ps : Option PrimarySecondary}
    (h : matchOne cats a slot ps = Except.ok cats') :
    cats' = cats ∨ ∃ n, slot = some n ∧
      cats' = updateK cats n (fun q =>
        { q with archetypes := q.archetypes ++ [a.id],
                 pri_sec := ps.getD q.pri_sec }) := by
  unfold matchOne at h
  cases hs : slot with
  | none =>
    simp only [hs, Except.ok.injEq] at h
    exact Or.inl h.symm
  | some n =>
    simp only [hs] at h
    cases hlk : lookupK cats n with
    | none =>
      simp only [hlk, Except.ok.injEq] at h
      exact Or.inl h.symm
    | some c =>
      simp only [hlk] at h
      cases han : a.pch_name with
      | none =>
        cases hcn : c.pch_name <;> simp only [han, hcn] at h <;>
          exact Except.noConfusion h
      | some an =>
        cases hcn : c.pch_name with
        | none =>
          simp only [han, hcn] at h
          exact Except.noConfusion h
        | some cn =>
          simp only [han, hcn, Except.ok.injEq] at h
          exact Or.inr ⟨n, rfl, h.symm⟩

/-- Per-entry extension of archetype lists by at most `bnd k` copies of one
archetype id. -/
def ArchExt (aid : Nat) (bnd : NameKey → Nat)
    (cats cats' : List (NameKey × PowerCategory)) : Prop :=
  cats'.length = cats.length ∧
  ∀ (i : Nat) (kv kv' : NameKey × PowerCategory),
    cats[i]? = some kv → cats'[i]? = some kv' →
    kv'.1 = kv.1 ∧
    ∃ m, kv'.2.archetypes = kv.2.archetypes ++ List.replicate m aid ∧ m ≤ bnd kv.1

theorem archExt_refl (aid : Nat) (bnd : NameKey → Nat)
    (cats : List (NameKey × PowerCategory)) : ArchExt aid bnd cats cats := by
  refine ⟨rfl, fun i kv kv' h1 h2 => ?_⟩
  rw [h1] at h2
  injection h2 with h2
  subst h2
  exact ⟨rfl, 0, by simp, Nat.zero_le _⟩

theorem archExt_mono {aid : Nat} {b1 b2 : NameKey → Nat}
    {cats cats' : List (NameKey × PowerCategory)}
    (h : ArchExt aid b1 cats cats') (hb : ∀ k, b1 k ≤ b2 k) :
    ArchExt aid b2 cats cats' := by
  refine ⟨h.1, fun i kv kv' h1 h2 => ?_⟩
  obtain ⟨hk, m, hm, hle⟩ := h.2 i kv kv' h1 h2
  exact ⟨hk, m, hm, le_trans hle (hb kv.1)⟩

theorem archExt_trans {aid : Nat} {b1 b2 : NameKey → Nat}
    {c0 c1 c2 : List (NameKey × PowerCategory)}
    (h1 : ArchExt aid b1 c0 c1) (h2 : ArchExt aid b2 c1 c2) :
    ArchExt aid (fun k => b1 k + b2 k) c0 c2 := by
  refine ⟨h2.1.trans h1.1, fun i kv kv' hl hl' => ?_⟩
  have hlen := h1.1
  have hi : i < c1.length := by
    have hlt := (List.getElem?_eq_some.mp hl).1
    omega
  obtain ⟨kvm, hlm⟩ : ∃ b, c1[i]? = some b := ⟨c1[i], List.getElem?_eq_getElem hi⟩
  obtain ⟨hk1, m1, hm1, hle1⟩ := h1.2 i kv kvm hl hlm
  obtain ⟨hk2, m2, hm2, hle2⟩ := h2.2 i kvm kv' hlm hl'
  refine ⟨hk2.trans hk1, m1 + m2, ?_, ?_⟩
  · rw [hm2, hm1, List.append_assoc, ← List.replicate_add]
  · rw [hk1] at hle2
    show m1 + m2 ≤ b1 kv.1 + b2 kv.1
    omega

theorem updateK_getElem {α : Type} (l : List (NameKey × α)) (k : NameKey)
    (f : α → α) (i : Nat) :
    (updateK l k f)[i]? =
      (l[i]?).map (fun kv => if kv.1 = k then (kv.1, f kv.2) else kv) := by
  unfold updateK
  exact List.getElem?_map _ l i

theorem matchOne_archExt {cats cats' : List (NameKey × PowerCategory)}
    {a : Archetype} {slot : Option NameKey} {ps : Option PrimarySecondary}
    (h : matchOne cats a slot ps = Except.ok cats') :
    ArchExt a.id (fun k => if slot = some k then 1 else 0) cats cats' := by
  rcases matchOne_shape h with hid | ⟨n, hslot, hupd⟩
  · subst hid
    exact archExt_refl _ _ _
  · subst hupd
    refine ⟨by unfold updateK; simp, fun i kv kv' h1 h2 => ?_⟩
    rw [updateK_getElem, h1] at h2
    injection h2 with h2
    subst h2
    dsimp only
    by_cases hk : kv.1 = n
    · rw [if_pos hk]
      refine ⟨rfl, 1, by simp, ?_⟩
      rw [hslot, hk]
      simp
    · rw [if_neg hk]
      exact ⟨rfl, 0, by simp, Nat.zero_le _⟩

theorem globals_fold_archExt (a : Archetype) :
    ∀ (gs : List NameKey) (cats cats' : List (NameKey × PowerCategory)),
    foldE (fun cs g => matchOne cs a (some g) none) cats gs = Except.ok cats' →
    ArchExt a.id (fun k => (gs.filter (fun g => g = k)).length) cats cats' := by
  intro gs
  induction gs with
  | nil =>
    intro cats cats' h
    simp only [foldE_nil, Except.ok.injEq] at h
    subst h
    exact archExt_refl _ _ _
  | cons g rest ih =>
    intro cats cats' h
    obtain ⟨cats1, h1, h2⟩ := foldE_cons_ok _ _ _ _ _ h
    have ha1 := matchOne_archExt h1
    have ha2 := ih cats1 cats' h2
    refine archExt_mono (archExt_trans ha1 ha2) ?_
    intro k
    dsimp only
    rw [List.filter_cons]
    by_cases hg : g = k
    · have h1 : some g = some k := by simp [hg]
      have h2 : (decide (g = k)) = true := by simp [hg]
      rw [if_pos h1, if_pos h2, List.length_cons]
      omega
    · have h1 : ¬ some g = some k := by simp [hg]
      have h2 : ¬ (decide (g = k)) = true := by simp [hg]
      rw [if_neg h1, if_neg h2]
      omega

theorem matchArchetypeStep_archExt {globals : List NameKey}
    {cats cats' : List (NameKey × PowerCategory)} {a : Archetype}
    (h : matchArchetypeStep globals cats a = Except.ok cats') :
    ArchExt a.id (routeCount globals a) cats cats' := by
  unfold matchArchetypeStep at h
  cases hm1 : matchOne cats a a.pch_primary_category (some PrimarySecondary.Primary) with
  | error er => simp only [hm1] at h; exact Except.noConfusion h
  | ok c1 =>
    simp only [hm1] at h
    cases hm2 : matchOne c1 a a.pch_secondary_category (some PrimarySecondary.Secondary) with
    | error er => simp only [hm2] at h; exact Except.noConfusion h
    | ok c2 =>
      simp only [hm2] at h
      cases hm3 : matchOne c2 a a.pch_epic_pool_category none with
      | error er => simp only [hm3] at h; exact Except.noConfusion h
      | ok c3 =>
        simp only [hm3] at h
        cases hm4 : matchOne c3 a a.pch_power_pool_category none with
        | error er => simp only [hm4] at h; exact Except.noConfusion h
        | ok c4 =>
          simp only [hm4] at h
          have e1 := matchOne_archExt hm1
          have e2 := matchOne_archExt hm2
          have e3 := matchOne_archExt hm3
          have e4 := matchOne_archExt hm4
          have e5 := globals_fold_archExt a globals c4 cats' h
          refine archExt_mono
            (archExt_trans (archExt_trans (archExt_trans (archExt_trans e1 e2) e3) e4) e5) ?_
          intro k
          unfold routeCount
          omega

/-- Amendment of C8: the matcher appends archetype references without any
identity check, so duplicates can only be excluded when no archetype is
matched to the same category through more than one route.  Under that
hypothesis (plus distinct archetype identities and the freshly-parsed empty
archetype lists), every category's archetype list stays duplicate-free. -/
theorem c8_matcher_nodup_amended {ats : List Archetype} {globals : List NameKey}
    {cats cats' : List (NameKey × PowerCategory)}
    (hempty : ∀ kv ∈ cats, (kv.2 : PowerCategory).archetypes = [])
    (hids : (ats.map (fun a => a.id)).Nodup)
    (hroutes : ∀ a ∈ ats, ∀ k, routeCount globals a k ≤ 1)
    (h : match_archetypes_to_power_categories ats globals cats = Except.ok cats') :
    ∀ kv ∈ cats', (kv.2 : PowerCategory).archetypes.Nodup := by
  unfold match_archetypes_to_power_categories at h
  suffices hgen : ∀ (ats0 : List Archetype) (cats0 cats1 : List (NameKey × PowerCategory)),
      (ats0.map (fun a => a.id)).Nodup →
      (∀ a ∈ ats0, ∀ k, routeCount globals a k ≤ 1) →
      (∀ kv ∈ cats0, (kv.2 : PowerCategory).archetypes.Nodup ∧
        ∀ x ∈ (kv.2 : PowerCategory).archetypes, x ∉ ats0.map (fun a => a.id)) →
      foldE (matchArchetypeStep globals) cats0 ats0 = Except.ok cats1 →
      ∀ kv ∈ cats1, (kv.2 : PowerCategory).archetypes.Nodup by
    refine hgen ats cats cats' hids hroutes ?_ h
    intro kv hm
    rw [hempty kv hm]
    exact ⟨List.nodup_nil, by simp⟩
  intro ats0
  induction ats0 with
  | nil =>
    intro cats0 cats1 _ _ hinv hfold
    simp only [foldE_nil, Except.ok.injEq] at hfold
    subst hfold
    exact fun kv hm => (hinv kv hm).1
  | cons a rest ih =>
    intro cats0 cats1 hids0 hroutes0 hinv hfold
    obtain ⟨catsm, hstep, hrest⟩ := foldE_cons_ok _ _ _ _ _ hfold
    have hext := matchArchetypeStep_archExt hstep
    have hidsr : (rest.map (fun a => a.id)).Nodup := by
      simp only [List.map_cons, List.nodup_cons] at hids0
      exact hids0.2
    have haid : a.id ∉ rest.map (fun a => a.id) := by
      simp only [List.map_cons, List.nodup_cons] at hids0
      exact hids0.1
    refine ih catsm cats1 hidsr
      (fun a' hm k => hroutes0 a' (List.mem_cons_of_mem a hm) k) ?_ hrest
    intro kv' hm'
    obtain ⟨i, hli'⟩ := List.mem_iff_getElem?.mp hm'
    have hi : i < cats0.length := by
      have := (List.getElem?_eq_some.mp hli').1
      rw [hext.1] at this
      exact this
    obtain ⟨kv, hli⟩ : ∃ b, cats0[i]? = some b := ⟨cats0[i], List.getElem?_eq_getElem hi⟩
    obtain ⟨hkeq, m, hmarch, hmle⟩ := hext.2 i kv kv' hli hli'
    have hkvmem : kv ∈ cats0 := List.mem_iff_getElem?.mpr ⟨i, hli⟩
    obtain ⟨hnd, havoid⟩ := hinv kv hkvmem
    have hmle1 : m ≤ 1 := le_trans hmle (hroutes0 a (List.mem_cons_self a rest) kv.1)
    have haidfresh : a.id ∉ kv.2.archetypes := by
      intro hmem
      have := havoid a.id hmem
      simp only [List.map_cons] at this
      exact this (List.mem_cons_self _ _)
    constructor
    · interval_cases m
      · rw [hmarch, List.replicate_zero, List.append_nil]
        exact hnd
      · rw [hmarch]
        simp only [List.replicate_one]
        rw [List.nodup_append]
        exact ⟨hnd, List.nodup_singleton _, by
          intro x hx hx2
          simp only [List.mem_singleton] at hx2
          subst hx2
          exact haidfresh hx⟩
    · intro x hx
      rw [hmarch] at hx
      rcases List.mem_append.mp hx with hx | hx
      · exact fun hc => havoid x hx (by
          simp only [List.map_cons]
          exact List.mem_cons_of_mem _ hc)
      · have hxa : x = a.id := List.eq_of_mem_replicate hx
        subst hxa
        exact haid

/-- C8 counterexample: an archetype whose primary slot names a category
that is also in the configured global-categories list is pushed twice, so
the category's archetype list contains two pointer-identical references,
contradicting the claimed invariant. -/
theorem c8_counterexample :
    match_archetypes_to_power_categories
      [{ id := 7, pch_name := some ("AT"),
         pch_primary_category := some ("cat1") }]
      [("cat1")] [("cat1", { pch_name := some ("cat1") })] =
    Except.ok [("cat1",
      { pch_name := some ("cat1"), archetypes := [7, 7],
        pri_sec := PrimarySecondary.Primary })] ∧
    ¬ ([7, 7] : List Nat).Nodup :=
  ⟨rfl, by decide⟩

/-- Concrete inputs used to witness the amended C8: one archetype matched
to one category through exactly one route. -/
def c8Ats : List Archetype :=
  [{ id := 7, pch_name := some ("AT"), pch_primary_category := some ("cat1") }]

def c8Cats : List (NameKey × PowerCategory) :=
  [("cat1", { pch_name := some ("cat1") })]

theorem c8_matcher_nodup_amended_witness :
    (({ pch_name := some ("cat1"), archetypes := [7],
        pri_sec := PrimarySecondary.Primary } : PowerCategory)).archetypes.Nodup :=
  @c8_matcher_nodup_amended c8Ats [] c8Cats
    [("cat1",
      { pch_name := some ("cat1"), archetypes := [7],
        pri_sec := PrimarySecondary.Primary })]
    (by
      intro kv hkv
      simp only [c8Cats, List.mem_singleton] at hkv
      subst hkv
      rfl)
    (by decide)
    (by
      intro a ha k
      simp only [c8Ats, List.mem_singleton] at ha
      subst ha
      simp only [routeCount]
      by_cases hk : (("cat1") : NameKey) = k
      · subst hk
        simp
      · simp [hk])
    rfl
    (("cat1"),
      { pch_name := some ("cat1"), archetypes := [7],
        pri_sec := PrimarySecondary.Primary })
    (List.mem_cons_self _ _)

/-! Power grants copied onto EntCreate parameters (C9). -/

/-- Contribution of one villain power reference to the flattened
power-reference list, as the spec states it (to be compared with
`collectRefsStep`): a wildcard reference contributes every power name
declared in the named set when that set exists; an exact reference
contributes the referenced power's full name exactly when the
three-segment key is found in the power table (and its full name is
present). -/
def c9Contrib (st : St) (pr : VillainPowerRef) : List NameKey :=
  if (match pr.power with
      | some s => isWildcard s
      | none => false) then
    match pr.power_category, pr.power_set with
    | some c, some s =>
      match lookupK st.powerSets (c ++ sepDot ++ s) with
      | some pset => pset.pp_power_names
      | none => []
    | _, _ => []
  else
    match pr.power_category, pr.power_set, pr.power with
    | some c, some s, some p =>
      ((lookupK st.powers (c ++ sepDot ++ s ++ sepDot ++ p)).bind
        (fun pw => pw.pch_full_name)).toList
    | _, _, _ => []

theorem collectRefsStep_ok_append {st : St} {acc res : List NameKey}
    {pr : VillainPowerRef} (h : collectRefsStep st acc pr = Except.ok res) :
    res = acc ++ c9Contrib st pr := by
  unfold collectRefsStep at h
  unfold c9Contrib
  by_cases hw : (match pr.power with
      | some s => isWildcard s
      | none => false) = true
  · rw [if_pos hw] at h
    rw [if_pos hw]
    cases hc : pr.power_category with
    | none => simp only [hc] at h; exact Except.noConfusion h
    | some c =>
      cases hs : pr.power_set with
      | none => simp only [hc, hs] at h; exact Except.noConfusion h
      | some s =>
        simp only [hc, hs] at h
        simp only [hc, hs]
        cases hlk : lookupK st.powerSets (c ++ sepDot ++ s) with
        | none =>
          simp only [hlk, Except.ok.injEq] at h
          simp only [hlk, List.append_nil]
          exact h.symm
        | some pset =>
          simp only [hlk, Except.ok.injEq] at h
          simp only [hlk]
          exact h.symm
  · rw [if_neg hw] at h
    rw [if_neg hw]
    cases hc : pr.power_category with
    | none => simp only [hc] at h; exact Except.noConfusion h
    | some c =>
      cases hs : pr.power_set with
      | none => simp only [hc, hs] at h; exact Except.noConfusion h
      | some s =>
        cases hp : pr.power with
        | none => simp only [hc, hs, hp] at h; exact Except.noConfusion h
        | some p =>
          simp only [hc, hs, hp] at h
          simp only [hc, hs, hp]
          cases hlk : lookupK st.powers (c ++ sepDot ++ s ++ sepDot ++ p) with
          | none =>
            simp only [hlk, Except.ok.injEq] at h
            simp only [hlk, Option.none_bind, Option.toList_none, List.append_nil]
            exact h.symm
          | some pw =>
            simp only [hlk] at h
            simp only [hlk, Option.some_bind]
            cases hfn : pw.pch_full_name with
            | none =>
              simp only [hfn, Except.ok.injEq] at h
              simp only [hfn, Option.toList_none, List.append_nil]
              exact h.symm
            | some fn =>
              simp only [hfn, Except.ok.injEq] at h
              simp only [hfn, Option.toList_some]
              exact h.symm

theorem collect_fold_append {st : St} :
    ∀ (prs : List VillainPowerRef) (acc res : List NameKey),
    foldE (collectRefsStep st) acc prs = Except.ok res →
    res = acc ++ prs.flatMap (c9Contrib st) := by
  intro prs
  induction prs with
  | nil =>
    intro acc res h
    simp only [foldE_nil, Except.ok.injEq] at h
    simp [← h]
  | cons pr rest ih =>
    intro acc res h
    obtain ⟨acc1, h1, h2⟩ := foldE_cons_ok _ _ _ _ _ h
    rw [ih acc1 res h2, collectRefsStep_ok_append h1, List.flatMap_cons,
      List.append_assoc]

theorem mark_sets_include {b : Option NameKey} {r : NameKey} {a : List Nat}
    {st st' : St} (h : markPowerForInclusion b r a st = Except.ok st') :
    ∀ pw, lookupK st'.powers r = some pw → pw.include_in_output = true := by
  intro pw hpw
  unfold markPowerForInclusion at h
  cases hp1 : (segmentsOf r)[1]? with
  | none => rw [hp1] at h; exact absurd h (by simp)
  | some p1 =>
    rw [hp1] at h
    simp only at h
    cases hlk : lookupK st.powers r with
    | none =>
      rw [hlk] at h
      injection h with h
      subst h
      dsimp only at hpw
      rw [hlk] at hpw
      exact Option.noConfusion hpw
    | some pw0 =>
      rw [hlk] at h
      by_cases hb : b = some r
      · rw [if_pos hb] at h; exact absurd h (by simp)
      · rw [if_neg hb] at h
        injection h with h
        subst h
        dsimp only at hpw
        rw [lookupK_updateK, if_pos rfl, hlk] at hpw
        injection hpw with hpw
        rw [← hpw]
        rfl

theorem mark_powers_fst {b : Option NameKey} {r : NameKey} {a : List Nat}
    {st st' : St} (h : markPowerForInclusion b r a st = Except.ok st') :
    st'.powers.map Prod.fst = st.powers.map Prod.fst := by
  obtain ⟨p1, _, _, _, hpows, _, _, _⟩ := mark_ok_shape h
  cases hpows with
  | inl hsame => rw [hsame]
  | inr hupd => rw [hupd, updateK_map_fst]

theorem markFold_powers_fst {b : Option NameKey} {a : List Nat} :
    ∀ (refs : List NameKey) (st0 st1 : St),
    foldE (fun s r => markPowerForInclusion b r a s) st0 refs = Except.ok st1 →
    st1.powers.map Prod.fst = st0.powers.map Prod.fst := by
  intro refs
  induction refs with
  | nil =>
    intro st0 st1 h
    simp only [foldE_nil, Except.ok.injEq] at h
    rw [← h]
  | cons q rs ih =>
    intro st0 st1 h
    obtain ⟨sA, h1, h2⟩ := foldE_cons_ok _ _ _ _ _ h
    rw [ih sA st1 h2, mark_powers_fst h1]

theorem markFold_includes {b : Option NameKey} {a : List Nat} :
    ∀ (refs : List NameKey) (st0 st1 : St),
    foldE (fun s r => markPowerForInclusion b r a s) st0 refs = Except.ok st1 →
    ∀ r ∈ refs, ∀ pw, lookupK st1.powers r = some pw →
      pw.include_in_output = true := by
  intro refs
  induction refs with
  | nil =>
    intro st0 st1 h r hr
    exact absurd hr (List.not_mem_nil r)
  | cons q rs ih =>
    intro st0 st1 h r hr pw hpw
    obtain ⟨sA, h1, h2⟩ := foldE_cons_ok _ _ _ _ _ h
    rcases List.mem_cons.mp hr with hq | hrs
    · subst hq
      have hkeys := markFold_powers_fst rs sA st1 h2
      have hsome1 : (lookupK st1.powers r).isSome := by rw [hpw]; rfl
      have hmem : r ∈ sA.powers.map Prod.fst := by
        rw [← hkeys]
        exact (lookupK_isSome_iff _ _).mp hsome1
      obtain ⟨pwA, hpwA⟩ :=
        Option.isSome_iff_exists.mp ((lookupK_isSome_iff _ _).mpr hmem)
      have hinclA : pwA.include_in_output = true := mark_sets_include h1 pwA hpwA
      have hmono := foldE_inclMono _ (fun s x s' hx => mark_inclMono hx) rs sA st1 h2
      obtain ⟨pw', hpw', hincl'⟩ := hmono.2.2 r pwA hpwA hinclA
      rw [hpw] at hpw'
      injection hpw' with hpw'
      rw [hpw']
      exact hincl'
    · exact ih sA st1 h2 r hrs pw hpw

/-- C9: for an EntCreate parameter with a resolved VillainDef, the updated
parameter's power-reference list is the old list extended by each
reference's contribution (wildcard references contribute the named set's
declared power names when the set exists, exact references contribute the
found power's full name); every accumulated reference that names a power
present in the resulting table is marked `include_in_output`; and the
inheriting archetype set is the villain's resolved archetype or none. -/
theorem c9_entcreate_power_grants {ck : NameKey}
    {e e' : AttribModParam_EntCreate} {vd : VillainDef} {st st' : St}
    (hvd : e.villain_def = some vd)
    (h : copyPowersToEntcreate ck e st = Except.ok (e', st')) :
    e'.power_refs = e.power_refs ++ vd.powers.flatMap (c9Contrib st) ∧
    (∀ r ∈ e'.power_refs, ∀ pw, lookupK st'.powers r = some pw →
      pw.include_in_output = true) ∧
    (entArchs st vd = [] ∨ ∃ cn a, vd.character_class_name = some cn ∧
      lookupK st.villainArchetypes (classSigil ++ cn) = some a ∧
      entArchs st vd = [a]) := by
  unfold copyPowersToEntcreate at h
  simp only [hvd] at h
  cases hcol : foldE (collectRefsStep st) e.power_refs vd.powers with
  | error er => rw [hcol] at h; exact absurd h (by simp)
  | ok allRefs =>
    simp only [hcol] at h
    cases hmk : foldE
        (fun s r => markPowerForInclusion (some ck) r (entArchs st vd) s)
        st allRefs with
    | error er => rw [hmk] at h; exact absurd h (by simp)
    | ok st1 =>
      simp only [hmk, Except.ok.injEq, Prod.mk.injEq] at h
      obtain ⟨he', hst1⟩ := h
      have hrefs : e'.power_refs = allRefs := by rw [← he']
      have hall := collect_fold_append vd.powers e.power_refs allRefs hcol
      refine ⟨hrefs.trans hall, ?_, ?_⟩
      · intro r hr pw hpw
        rw [← hst1] at hpw
        exact markFold_includes allRefs st st1 hmk r (hrefs ▸ hr) pw hpw
      · unfold entArchs
        cases hcn : vd.character_class_name with
        | none => exact Or.inl rfl
        | some cn =>
          dsimp only
          cases hla : lookupK st.villainArchetypes (classSigil ++ cn) with
          | none => exact Or.inl rfl
          | some a0 => exact Or.inr ⟨cn, a0, rfl, hla, rfl⟩

/-- Concrete inputs used to witness C9: the spec's Wolf_Powers.Melee
wildcard scenario. -/
def c9Vd : VillainDef :=
  { character_class_name := none,
    powers := [{ power_category := some ("Wolf_Powers"),
                 power_set := some ("Melee"),
                 power := some ("*") }] }

def c9E : AttribModParam_EntCreate :=
  { pch_entity_def := some ("Pet_Wolf"), villain_def := some c9Vd }

def c9StIn : St :=
  { powerSets := [(("Wolf_Powers.Melee"),
      { pch_name := some ("Melee"),
        pp_power_names := [("Wolf_Powers.Melee.Bite")] })],
    powers := [(("Wolf_Powers.Melee.Bite"),
      { pch_name := some ("Bite"),
        pch_full_name := some ("Wolf_Powers.Melee.Bite") })] }

def c9StOut : St :=
  { powerSets := [(("Wolf_Powers.Melee"),
      { pch_name := some ("Melee"),
        pp_power_names := [("Wolf_Powers.Melee.Bite")],
        include_in_output := true })],
    powers := [(("Wolf_Powers.Melee.Bite"),
      { pch_name := some ("Bite"),
        pch_full_name := some ("Wolf_Powers.Melee.Bite"),
        include_in_output := true })] }

theorem c9_entcreate_power_grants_witness :
    ({ c9E with power_refs := [("Wolf_Powers.Melee.Bite")] }
        : AttribModParam_EntCreate).power_refs =
      c9E.power_refs ++ c9Vd.powers.flatMap (c9Contrib c9StIn) ∧
    (∀ r ∈ ({ c9E with power_refs := [("Wolf_Powers.Melee.Bite")] }
        : AttribModParam_EntCreate).power_refs,
      ∀ pw, lookupK c9StOut.powers r = some pw →
        pw.include_in_output = true) ∧
    (entArchs c9StIn c9Vd = [] ∨ ∃ cn a, c9Vd.character_class_name = some cn ∧
      lookupK c9StIn.villainArchetypes (classSigil ++ cn) = some a ∧
      entArchs c9StIn c9Vd = [a]) :=
  @c9_entcreate_power_grants ("Current.Power.Key") c9E
    ({ c9E with power_refs := [("Wolf_Powers.Melee.Bite")] }) c9Vd c9StIn c9StOut
    rfl rfl

/-! Default-inclusion cascade: per-category characterization and the
shared-power archetype overwrite (C5). -/

theorem cascPower_idem (ats : List Nat) (q : BasePower) :
    cascPower ats (cascPower ats q) = cascPower ats q := rfl

theorem cascMarkPowers_nil (ats : List Nat) (s : St) :
    cascMarkPowers ats s [] = s := rfl

theorem cascMarkPowers_cons (ats : List Nat) (s : St) (pk : NameKey)
    (pks : List NameKey) :
    cascMarkPowers ats s (pk :: pks) =
      cascMarkPowers ats
        { s with powers := updateK s.powers pk (cascPower ats) } pks := rfl

theorem cascMarkPowers_frame (ats : List Nat) :
    ∀ (pks : List NameKey) (s : St),
    (cascMarkPowers ats s pks).powerCats = s.powerCats ∧
    (cascMarkPowers ats s pks).powerSets = s.powerSets ∧
    (cascMarkPowers ats s pks).egroups = s.egroups ∧
    (cascMarkPowers ats s pks).villains = s.villains ∧
    (cascMarkPowers ats s pks).villainArchetypes = s.villainArchetypes ∧
    (cascMarkPowers ats s pks).powers.map Prod.fst = s.powers.map Prod.fst := by
  intro pks
  induction pks with
  | nil => intro s; exact ⟨rfl, rfl, rfl, rfl, rfl, rfl⟩
  | cons pk rest ih =>
    intro s
    rw [cascMarkPowers_cons]
    obtain ⟨h1, h2, h3, h4, h5, h6⟩ :=
      ih { s with powers := updateK s.powers pk (cascPower ats) }
    exact ⟨h1, h2, h3, h4, h5, h6.trans (updateK_map_fst _ _ _)⟩

theorem cascMarkPowers_lookup (ats : List Nat) :
    ∀ (pks : List NameKey) (s : St) (k : NameKey),
    lookupK (cascMarkPowers ats s pks).powers k =
      if k ∈ pks then (lookupK s.powers k).map (cascPower ats)
      else lookupK s.powers k := by
  intro pks
  induction pks with
  | nil =>
    intro s k
    rw [cascMarkPowers_nil, if_neg (List.not_mem_nil k)]
  | cons pk rest ih =>
    intro s k
    have hcomp : cascPower ats ∘ cascPower ats = cascPower ats :=
      funext (fun q => rfl)
    rw [cascMarkPowers_cons, ih]
    dsimp only
    rw [lookupK_updateK]
    by_cases hr : k ∈ rest
    · rw [if_pos hr, if_pos (List.mem_cons_of_mem pk hr)]
      by_cases hk : k = pk
      · rw [if_pos hk, Option.map_map, hcomp]
      · rw [if_neg hk]
    · rw [if_neg hr]
      by_cases hk : k = pk
      · rw [if_pos hk, if_pos (by rw [hk]; exact List.mem_cons_self pk rest)]
      · rw [if_neg hk, if_neg (fun hm => (List.mem_cons.mp hm).elim hk hr)]

theorem lookupK_isSome_congr {α β : Type} {l : List (NameKey × α)}
    {l' : List (NameKey × β)} (h : l.map Prod.fst = l'.map Prod.fst)
    (k : NameKey) : (lookupK l k).isSome = (lookupK l' k).isSome := by
  rw [Bool.eq_iff_iff, lookupK_isSome_iff, lookupK_isSome_iff, h]

theorem list_any_congr {α : Type} {l : List α} {p q : α → Bool}
    (h : ∀ x ∈ l, p x = q x) : l.any p = l.any q := by
  induction l with
  | nil => rfl
  | cons a as ih =>
    simp only [List.any_cons]
    rw [h a (List.mem_cons_self a as),
      ih (fun x hx => h x (List.mem_cons_of_mem a hx))]

theorem cascSetStep_none (ats : List Nat) (s : St) (sk0 : NameKey)
    (h : lookupK s.powerSets sk0 = none) : cascSetStep ats s sk0 = s := by
  unfold cascSetStep
  rw [h]

theorem cascSetStep_frame (ats : List Nat) (s : St) (sk0 : NameKey) :
    (cascSetStep ats s sk0).powerCats = s.powerCats ∧
    (cascSetStep ats s sk0).egroups = s.egroups ∧
    (cascSetStep ats s sk0).villains = s.villains ∧
    (cascSetStep ats s sk0).villainArchetypes = s.villainArchetypes ∧
    (cascSetStep ats s sk0).powers.map Prod.fst = s.powers.map Prod.fst ∧
    (cascSetStep ats s sk0).powerSets.map Prod.fst = s.powerSets.map Prod.fst := by
  unfold cascSetStep
  cases hlk : lookupK s.powerSets sk0 with
  | none => exact ⟨rfl, rfl, rfl, rfl, rfl, rfl⟩
  | some ps =>
    simp only
    obtain ⟨h1, h2, h3, h4, h5, h6⟩ := cascMarkPowers_frame ats ps.pp_powers s
    refine ⟨h1, h3, h4, h5, h6, ?_⟩
    dsimp only
    rw [updateK_map_fst, h2]

theorem cascSetStep_powers_touched {ats : List Nat} {s : St} {sk0 : NameKey}
    {k : NameKey} {ps : BasePowerSet}
    (hps : lookupK s.powerSets sk0 = some ps) (hk : k ∈ ps.pp_powers) :
    lookupK (cascSetStep ats s sk0).powers k =
      (lookupK s.powers k).map (cascPower ats) := by
  unfold cascSetStep
  rw [hps]
  simp only
  rw [cascMarkPowers_lookup, if_pos hk]

theorem cascSetStep_powers_untouched {ats : List Nat} {s : St} {sk0 : NameKey}
    {k : NameKey}
    (h : ∀ ps, lookupK s.powerSets sk0 = some ps → k ∉ ps.pp_powers) :
    lookupK (cascSetStep ats s sk0).powers k = lookupK s.powers k := by
  unfold cascSetStep
  cases hlk : lookupK s.powerSets sk0 with
  | none => rfl
  | some ps =>
    simp only
    rw [cascMarkPowers_lookup, if_neg (h ps hlk)]

theorem cascSetStep_sets_other {ats : List Nat} {s : St} {sk0 x : NameKey}
    (hx : ¬ x = sk0) :
    lookupK (cascSetStep ats s sk0).powerSets x = lookupK s.powerSets x := by
  unfold cascSetStep
  cases hlk : lookupK s.powerSets sk0 with
  | none => rfl
  | some ps =>
    simp only
    rw [lookupK_updateK, if_neg hx, (cascMarkPowers_frame ats ps.pp_powers s).2.1]

theorem cascSetStep_sets_self {ats : List Nat} {s : St} {sk0 : NameKey}
    {ps : BasePowerSet} (hps : lookupK s.powerSets sk0 = some ps) :
    lookupK (cascSetStep ats s sk0).powerSets sk0 =
      some { ps with include_in_output :=
        ps.pp_powers.any (fun pk => (lookupK s.powers pk).isSome) } := by
  unfold cascSetStep
  rw [hps]
  simp only
  rw [lookupK_updateK, if_pos rfl, (cascMarkPowers_frame ats ps.pp_powers s).2.1,
    hps]
  have hflag : anyPowerIncluded (cascMarkPowers ats s ps.pp_powers) ps.pp_powers =
      ps.pp_powers.any (fun pk => (lookupK s.powers pk).isSome) := by
    unfold anyPowerIncluded
    refine list_any_congr (fun pk hpk => ?_)
    rw [cascMarkPowers_lookup, if_pos hpk]
    cases lookupK s.powers pk <;> rfl
  simp only [Option.map_some']
  rw [hflag]

/-- Reachability of a power key through a list of set keys, read in state
`st`.  The cascade never changes any set's `pp_powers` list, so this is
stable across cascade processing. -/
def reachableThrough (st : St) (sks : List NameKey) (k : NameKey) : Prop :=
  ∃ sk ∈ sks, ∃ ps, lookupK st.powerSets sk = some ps ∧ k ∈ ps.pp_powers

theorem cascSets_spec (ats : List Nat) :
    ∀ (sks : List NameKey) (s : St),
    ((sks.foldl (cascSetStep ats) s).powerCats = s.powerCats ∧
     (sks.foldl (cascSetStep ats) s).egroups = s.egroups ∧
     (sks.foldl (cascSetStep ats) s).villains = s.villains ∧
     (sks.foldl (cascSetStep ats) s).villainArchetypes = s.villainArchetypes ∧
     (sks.foldl (cascSetStep ats) s).powers.map Prod.fst = s.powers.map Prod.fst ∧
     (sks.foldl (cascSetStep ats) s).powerSets.map Prod.fst =
       s.powerSets.map Prod.fst) ∧
    (∀ k, reachableThrough s sks k →
      lookupK (sks.foldl (cascSetStep ats) s).powers k =
        (lookupK s.powers k).map (cascPower ats)) ∧
    (∀ k, ¬ reachableThrough s sks k →
      lookupK (sks.foldl (cascSetStep ats) s).powers k = lookupK s.powers k) ∧
    (∀ sk ∈ sks, ∀ ps, lookupK s.powerSets sk = some ps →
      ∃ ps', lookupK (sks.foldl (cascSetStep ats) s).powerSets sk = some ps' ∧
        ps'.pp_powers = ps.pp_powers ∧
        ps'.include_in_output =
          ps.pp_powers.any (fun pk => (lookupK s.powers pk).isSome)) ∧
    (∀ sk, sk ∉ sks →
      lookupK (sks.foldl (cascSetStep ats) s).powerSets sk =
        lookupK s.powerSets sk) := by
  intro sks
  induction sks with
  | nil =>
    intro s
    refine ⟨⟨rfl, rfl, rfl, rfl, rfl, rfl⟩, ?_, ?_, ?_, ?_⟩
    · intro k hk
      obtain ⟨sk, hsk, _⟩ := hk
      exact absurd hsk (List.not_mem_nil sk)
    · intro k _
      rfl
    · intro sk hsk
      exact absurd hsk (List.not_mem_nil sk)
    · intro sk _
      rfl
  | cons sk0 rest ih =>
    intro s
    simp only [List.foldl_cons]
    have hcomp : cascPower ats ∘ cascPower ats = cascPower ats :=
      funext (fun q => rfl)
    obtain ⟨f1, f2, f3, f4, f5, f6⟩ := cascSetStep_frame ats s sk0
    have hsets_pp : ∀ x ps, lookupK s.powerSets x = some ps →
        ∃ ps', lookupK (cascSetStep ats s sk0).powerSets x = some ps' ∧
          ps'.pp_powers = ps.pp_powers := by
      intro x ps hps
      by_cases hx : x = sk0
      · subst hx
        exact ⟨_, cascSetStep_sets_self hps, rfl⟩
      · exact ⟨ps, (cascSetStep_sets_other hx).trans hps, rfl⟩
    have hsets_pp' : ∀ x ps', lookupK (cascSetStep ats s sk0).powerSets x = some ps' →
        ∃ ps, lookupK s.powerSets x = some ps ∧ ps.pp_powers = ps'.pp_powers := by
      intro x ps' hps'
      by_cases hx : x = sk0
      · subst hx
        cases hlk : lookupK s.powerSets x with
        | none =>
          rw [cascSetStep_none ats s x hlk] at hps'
          exact absurd (hlk.symm.trans hps') (by simp)
        | some ps =>
          rw [cascSetStep_sets_self hlk] at hps'
          injection hps' with hps'
          exact ⟨ps, rfl, by rw [← hps']⟩
      · rw [cascSetStep_sets_other hx] at hps'
        exact ⟨ps', hps', rfl⟩
    have hreach_iff : ∀ k,
        reachableThrough (cascSetStep ats s sk0) rest k ↔
          reachableThrough s rest k := by
      intro k
      constructor
      · rintro ⟨sk, hsk, ps', hps', hk⟩
        obtain ⟨ps, hps, hpp⟩ := hsets_pp' sk ps' hps'
        exact ⟨sk, hsk, ps, hps, by rw [hpp]; exact hk⟩
      · rintro ⟨sk, hsk, ps, hps, hk⟩
        obtain ⟨ps', hps', hpp'⟩ := hsets_pp sk ps hps
        exact ⟨sk, hsk, ps', hps', by rw [hpp']; exact hk⟩
    refine ⟨⟨(ih _).1.1.trans f1, (ih _).1.2.1.trans f2, (ih _).1.2.2.1.trans f3,
      (ih _).1.2.2.2.1.trans f4, (ih _).1.2.2.2.2.1.trans f5,
      (ih _).1.2.2.2.2.2.trans f6⟩, ?_, ?_, ?_, ?_⟩
    · intro k hk
      obtain ⟨sk, hsk, ps, hps, hkps⟩ := hk
      by_cases hkr : reachableThrough s rest k
      · rw [(ih _).2.1 k ((hreach_iff k).mpr hkr)]
        by_cases htouch : ∃ ps0, lookupK s.powerSets sk0 = some ps0 ∧
            k ∈ ps0.pp_powers
        · obtain ⟨ps0, hps0, hk0⟩ := htouch
          rw [cascSetStep_powers_touched hps0 hk0, Option.map_map, hcomp]
        · rw [cascSetStep_powers_untouched
            (fun ps0 hps0 hk0 => htouch ⟨ps0, hps0, hk0⟩)]
      · have hsk0 : sk = sk0 := by
          rcases List.mem_cons.mp hsk with h | h
          · exact h
          · exact absurd ⟨sk, h, ps, hps, hkps⟩ hkr
        subst hsk0
        have hnr : ¬ reachableThrough (cascSetStep ats s sk) rest k :=
          fun hc => hkr ((hreach_iff k).mp hc)
        rw [(ih _).2.2.1 k hnr, cascSetStep_powers_touched hps hkps]
    · intro k hk
      have h0 : ∀ ps, lookupK s.powerSets sk0 = some ps → k ∉ ps.pp_powers :=
        fun ps hps hkps =>
          hk ⟨sk0, List.mem_cons_self sk0 rest, ps, hps, hkps⟩
      have hnr : ¬ reachableThrough (cascSetStep ats s sk0) rest k := by
        intro hc
        obtain ⟨sk, hsk, ps, hps, hkps⟩ := (hreach_iff k).mp hc
        exact hk ⟨sk, List.mem_cons_of_mem sk0 hsk, ps, hps, hkps⟩
      rw [(ih _).2.2.1 k hnr, cascSetStep_powers_untouched h0]
    · intro sk hmem ps hps
      by_cases hr : sk ∈ rest
      · obtain ⟨psA, hpsA, hppA⟩ := hsets_pp sk ps hps
        obtain ⟨ps'', h1, h2, h3⟩ := (ih _).2.2.2.1 sk hr psA hpsA
        refine ⟨ps'', h1, h2.trans hppA, ?_⟩
        rw [h3, hppA]
        exact list_any_congr (fun pk hpk => lookupK_isSome_congr f5 pk)
      · have hsk0 : sk = sk0 := by
          rcases List.mem_cons.mp hmem with h | h
          · exact h
          · exact absurd h hr
        subst hsk0
        rw [(ih _).2.2.2.2 sk hr]
        exact ⟨_, cascSetStep_sets_self hps, rfl, rfl⟩
    · intro sk hmem
      have h1 : ¬ sk = sk0 := fun hc => hmem (by rw [hc]; exact List.mem_cons_self sk0 rest)
      have h2 : sk ∉ rest := fun hc => hmem (List.mem_cons_of_mem sk0 hc)
      rw [(ih _).2.2.2.2 sk h2, cascSetStep_sets_other h1]

theorem cascadeStep_cat_none {st : St} {ck : NameKey}
    (h : lookupK st.powerCats ck = none) : cascadeStep st ck = st := by
  unfold cascadeStep
  rw [h]

theorem cascadeStep_notTop {st : St} {ck : NameKey} {c : PowerCategory}
    (h : lookupK st.powerCats ck = some c) (htl : c.top_level = false) :
    cascadeStep st ck = st := by
  unfold cascadeStep
  simp only [h, htl, Bool.false_eq_true, if_false]

theorem cascadeStep_top_spec {st : St} {ck : NameKey} {c : PowerCategory}
    (hc : lookupK st.powerCats ck = some c) (htl : c.top_level = true) :
    (∀ k, reachableThrough st c.pp_power_sets k →
      lookupK (cascadeStep st ck).powers k =
        (lookupK st.powers k).map (cascPower c.archetypes)) ∧
    (∀ k, ¬ reachableThrough st c.pp_power_sets k →
      lookupK (cascadeStep st ck).powers k = lookupK st.powers k) ∧
    (∀ sk ∈ c.pp_power_sets, ∀ ps, lookupK st.powerSets sk = some ps →
      ∃ ps', lookupK (cascadeStep st ck).powerSets sk = some ps' ∧
        ps'.pp_powers = ps.pp_powers ∧
        ps'.include_in_output =
          anyPowerIncluded (cascadeStep st ck) ps.pp_powers) ∧
    (∃ c', lookupK (cascadeStep st ck).powerCats ck = some c' ∧
      c'.pp_power_sets = c.pp_power_sets ∧ c'.archetypes = c.archetypes ∧
      c'.include_in_output =
        anySetIncluded (cascadeStep st ck) c.pp_power_sets ∧
      c'.top_level = c'.include_in_output) ∧
    (∀ x, ¬ x = ck →
      lookupK (cascadeStep st ck).powerCats x = lookupK st.powerCats x) ∧
    (∀ sk, sk ∉ c.pp_power_sets →
      lookupK (cascadeStep st ck).powerSets sk = lookupK st.powerSets sk) := by
  obtain ⟨⟨g1, g2, g3, g4, g5, g6⟩, hA, hB, hC, hD⟩ :=
    cascSets_spec c.archetypes c.pp_power_sets st
  unfold cascadeStep
  simp only [hc]
  rw [if_pos htl]
  refine ⟨?_, ?_, ?_, ?_, ?_, ?_⟩
  · intro k hk
    exact hA k hk
  · intro k hk
    exact hB k hk
  · intro sk hsk ps hps
    obtain ⟨ps', h1, h2, h3⟩ := hC sk hsk ps hps
    refine ⟨ps', h1, h2, ?_⟩
    rw [h3]
    unfold anyPowerIncluded
    refine list_any_congr (fun pk hpk => ?_)
    have hreach : reachableThrough st c.pp_power_sets pk :=
      ⟨sk, hsk, ps, hps, hpk⟩
    rw [hA pk hreach]
    cases lookupK st.powers pk <;> rfl
  · refine ⟨{ c with
        include_in_output :=
          anySetIncluded (List.foldl (cascSetStep c.archetypes) st c.pp_power_sets)
            c.pp_power_sets,
        top_level :=
          anySetIncluded (List.foldl (cascSetStep c.archetypes) st c.pp_power_sets)
            c.pp_power_sets }, ?_, rfl, rfl, ?_, rfl⟩
    · dsimp only
      rw [lookupK_updateK, if_pos rfl, g1, hc, Option.map_some']
    · rfl
  · intro x hx
    dsimp only
    rw [lookupK_updateK, if_neg hx, g1]
  · intro sk hsk
    exact hD sk hsk

theorem cascSetStep_sets_proj (ats : List Nat) (s : St) (sk0 : NameKey) :
    (cascSetStep ats s sk0).powerSets.map (fun kv => (kv.1, kv.2.pp_powers)) =
      s.powerSets.map (fun kv => (kv.1, kv.2.pp_powers)) := by
  unfold cascSetStep
  cases hlk : lookupK s.powerSets sk0 with
  | none => rfl
  | some ps =>
    simp only
    exact (mapProj_updateK (fun (q : BasePowerSet) => q.pp_powers)
        ((cascMarkPowers ats s ps.pp_powers).powerSets) sk0
        (fun q => { q with include_in_output :=
          (anyPowerIncluded (cascMarkPowers ats s ps.pp_powers) q.pp_powers) })
        (fun v => rfl)).trans
      (by rw [(cascMarkPowers_frame ats ps.pp_powers s).2.1])

theorem cascSets_sets_proj (ats : List Nat) :
    ∀ (sks : List NameKey) (s : St),
    (sks.foldl (cascSetStep ats) s).powerSets.map
        (fun kv => (kv.1, kv.2.pp_powers)) =
      s.powerSets.map (fun kv => (kv.1, kv.2.pp_powers)) := by
  intro sks
  induction sks with
  | nil => intro s; rfl
  | cons sk0 rest ih =>
    intro s
    rw [List.foldl_cons, ih, cascSetStep_sets_proj]

theorem cascadeStep_sets_proj (st : St) (ck : NameKey) :
    (cascadeStep st ck).powerSets.map (fun kv => (kv.1, kv.2.pp_powers)) =
      st.powerSets.map (fun kv => (kv.1, kv.2.pp_powers)) := by
  unfold cascadeStep
  cases hc : lookupK st.powerCats ck with
  | none => rfl
  | some c =>
    simp only
    by_cases htl : c.top_level = true
    · rw [if_pos htl]
      exact cascSets_sets_proj c.archetypes c.pp_power_sets st
    · rw [if_neg htl]

theorem cascadeStep_cats_other {st : St} {ck x : NameKey} (hx : ¬ x = ck) :
    lookupK (cascadeStep st ck).powerCats x = lookupK st.powerCats x := by
  unfold cascadeStep
  cases hc : lookupK st.powerCats ck with
  | none => rfl
  | some c =>
    simp only
    by_cases htl : c.top_level = true
    · rw [if_pos htl]
      dsimp only
      rw [lookupK_updateK, if_neg hx,
        (cascSets_spec c.archetypes c.pp_power_sets st).1.1]
    · rw [if_neg htl]

theorem reach_proj_imp {s st : St}
    (h : s.powerSets.map (fun kv => (kv.1, kv.2.pp_powers)) =
      st.powerSets.map (fun kv => (kv.1, kv.2.pp_powers)))
    (sks : List NameKey) (k : NameKey)
    (hr : reachableThrough s sks k) : reachableThrough st sks k := by
  obtain ⟨sk, hsk, ps, hps, hk⟩ := hr
  have hl : (lookupK s.powerSets sk).map (fun q => q.pp_powers) =
      (lookupK st.powerSets sk).map (fun q => q.pp_powers) := by
    rw [← lookupK_map_proj, ← lookupK_map_proj, h]
  rw [hps] at hl
  cases hst : lookupK st.powerSets sk with
  | none => rw [hst] at hl; exact absurd hl (by simp)
  | some ps' =>
    rw [hst] at hl
    simp only [Option.map_some'] at hl
    injection hl with hl
    exact ⟨sk, hsk, ps', hst, by rw [← hl]; exact hk⟩

theorem cascade_unique_owner_aux {st : St} {ck : NameKey} {c : PowerCategory}
    {pk : NameKey}
    (hc : lookupK st.powerCats ck = some c) (htl : c.top_level = true)
    (hreach : reachableThrough st c.pp_power_sets pk) :
    ∀ (rem : List NameKey) (s : St),
    rem.Nodup →
    (s.powerSets.map (fun kv => (kv.1, kv.2.pp_powers)) =
      st.powerSets.map (fun kv => (kv.1, kv.2.pp_powers))) →
    (∀ ck', ck' ∈ rem → lookupK s.powerCats ck' = lookupK st.powerCats ck') →
    (∀ ck' ∈ rem, ¬ ck' = ck → ∀ c', lookupK st.powerCats ck' = some c' →
      c'.top_level = true → ¬ reachableThrough st c'.pp_power_sets pk) →
    ((ck ∈ rem ∧ lookupK s.powers pk = lookupK st.powers pk) ∨
     (ck ∉ rem ∧ lookupK s.powers pk =
        (lookupK st.powers pk).map (cascPower c.archetypes))) →
    lookupK (rem.foldl cascadeStep s).powers pk =
      (lookupK st.powers pk).map (cascPower c.archetypes) := by
  intro rem
  induction rem with
  | nil =>
    intro s _ _ _ _ hstatus
    rcases hstatus with ⟨hmem, _⟩ | ⟨_, hval⟩
    · exact absurd hmem (List.not_mem_nil ck)
    · exact hval
  | cons ck0 rest ih =>
    intro s hnd hproj hcats huniq hstatus
    rw [List.foldl_cons]
    have hproj' : (cascadeStep s ck0).powerSets.map
        (fun kv => (kv.1, kv.2.pp_powers)) =
        st.powerSets.map (fun kv => (kv.1, kv.2.pp_powers)) :=
      (cascadeStep_sets_proj s ck0).trans hproj
    have hndr : rest.Nodup := (List.nodup_cons.mp hnd).2
    have hck0r : ck0 ∉ rest := (List.nodup_cons.mp hnd).1
    have hcats' : ∀ ck', ck' ∈ rest →
        lookupK (cascadeStep s ck0).powerCats ck' = lookupK st.powerCats ck' := by
      intro ck' hck'
      have hne : ¬ ck' = ck0 := fun hx => hck0r (hx ▸ hck')
      rw [cascadeStep_cats_other hne]
      exact hcats ck' (List.mem_cons_of_mem ck0 hck')
    have huniq' : ∀ ck' ∈ rest, ¬ ck' = ck → ∀ c',
        lookupK st.powerCats ck' = some c' →
        c'.top_level = true → ¬ reachableThrough st c'.pp_power_sets pk :=
      fun ck' h => huniq ck' (List.mem_cons_of_mem ck0 h)
    by_cases hck0 : ck0 = ck
    · subst hck0
      rcases hstatus with ⟨hmem, hval⟩ | ⟨hnotmem, hval⟩
      · have hcs : lookupK s.powerCats ck0 = some c := by
          rw [hcats ck0 (List.mem_cons_self ck0 rest), hc]
        have hreach_s : reachableThrough s c.pp_power_sets pk :=
          reach_proj_imp hproj.symm c.pp_power_sets pk hreach
        have hstep : lookupK (cascadeStep s ck0).powers pk =
            (lookupK s.powers pk).map (cascPower c.archetypes) :=
          (cascadeStep_top_spec hcs htl).1 pk hreach_s
        refine ih (cascadeStep s ck0) hndr hproj' hcats' huniq'
          (Or.inr ⟨hck0r, ?_⟩)
        rw [hstep, hval]
      · exact absurd (List.mem_cons_self ck0 rest) hnotmem
    · have hkeep : lookupK (cascadeStep s ck0).powers pk =
          lookupK s.powers pk := by
        cases hcs : lookupK s.powerCats ck0 with
        | none => rw [cascadeStep_cat_none hcs]
        | some c0 =>
          have hc0st : lookupK st.powerCats ck0 = some c0 := by
            rw [← hcats ck0 (List.mem_cons_self ck0 rest), hcs]
          cases htl0 : c0.top_level with
          | false => rw [cascadeStep_notTop hcs htl0]
          | true =>
            have hnr : ¬ reachableThrough st c0.pp_power_sets pk :=
              huniq ck0 (List.mem_cons_self ck0 rest) hck0 c0 hc0st htl0
            have hnr_s : ¬ reachableThrough s c0.pp_power_sets pk :=
              fun hr => hnr (reach_proj_imp hproj c0.pp_power_sets pk hr)
            exact (cascadeStep_top_spec hcs htl0).2.1 pk hnr_s
      rcases hstatus with ⟨hmem, hval⟩ | ⟨hnotmem, hval⟩
      · have hmem' : ck ∈ rest := by
          rcases List.mem_cons.mp hmem with h | h
          · exact absurd h.symm hck0
          · exact h
        refine ih (cascadeStep s ck0) hndr hproj' hcats' huniq'
          (Or.inl ⟨hmem', ?_⟩)
        rw [hkeep, hval]
      · have hnot' : ck ∉ rest := fun h => hnotmem (List.mem_cons_of_mem ck0 h)
        refine ih (cascadeStep s ck0) hndr hproj' hcats' huniq'
          (Or.inr ⟨hnot', ?_⟩)
        rw [hkeep, hval]

/-- Concrete post-load state with power P shared between the linked sets
of two top-level categories with different archetype lists. -/
def c5St : St :=
  { powerCats :=
      [(("A"), { pch_name := some ("A"), pp_power_sets := [("SA")],
                 archetypes := [0], top_level := true }),
       (("B"), { pch_name := some ("B"), pp_power_sets := [("SB")],
                 archetypes := [1], top_level := true })],
    powerSets :=
      [(("SA"), { pch_name := some ("SA"), pp_powers := [("P")] }),
       (("SB"), { pch_name := some ("SB"), pp_powers := [("P")] })],
    powers := [(("P"), { pch_name := some ("P") })] }

/-- C5 counterexample: power P is reachable through the sets of top-level
category A (archetypes [0]), yet after the whole cascade its archetype
list is [1] — the list of the later-processed category B — so the claimed
"archetype list replaced by the category's archetype list" does not hold
in the final state for every top-level category at once. -/
theorem c5_counterexample :
    (lookupK c5St.powerCats ("A")).map
        (fun c => (c.top_level, c.archetypes, c.pp_power_sets)) =
      some (true, [0], [("SA")]) ∧
    (lookupK c5St.powerSets ("SA")).map (fun s0 => s0.pp_powers) =
      some [("P")] ∧
    (lookupK (cascadeIncludeTopLevel [("A"), ("B")] c5St).powers ("P")).map
        (fun q => q.archetypes) = some [1] ∧
    ¬ ([1] : List Nat) = [0] :=
  ⟨rfl, rfl, rfl, by decide⟩

/-- C5 amended: processing one top-level category does include every
reachable power unconditionally and overwrite its archetype list, set
each found set's flag to "any contained power included" and recompute the
category's flag as "any set included", demoting `top_level` to that value
(first conjunct, about `cascadeStep`).  Across the whole cascade the
archetype overwrite is last-writer-wins, so it survives to the final
state exactly when no other processed top-level category also reaches
the power (second conjunct); `c5_counterexample` shows the overwrite
does not survive for a shared power. -/
theorem c5_cascade_amended :
    (∀ (st : St) (ck : NameKey) (c : PowerCategory),
      lookupK st.powerCats ck = some c → c.top_level = true →
      (∀ k, reachableThrough st c.pp_power_sets k →
        lookupK (cascadeStep st ck).powers k =
          (lookupK st.powers k).map (cascPower c.archetypes)) ∧
      (∀ sk ∈ c.pp_power_sets, ∀ ps, lookupK st.powerSets sk = some ps →
        ∃ ps', lookupK (cascadeStep st ck).powerSets sk = some ps' ∧
          ps'.pp_powers = ps.pp_powers ∧
          ps'.include_in_output =
            anyPowerIncluded (cascadeStep st ck) ps.pp_powers) ∧
      (∃ c', lookupK (cascadeStep st ck).powerCats ck = some c' ∧
        c'.include_in_output =
          anySetIncluded (cascadeStep st ck) c.pp_power_sets ∧
        c'.top_level = c'.include_in_output)) ∧
    (∀ (cks : List NameKey) (st : St) (ck : NameKey) (c : PowerCategory)
        (pk : NameKey),
      cks.Nodup → ck ∈ cks →
      lookupK st.powerCats ck = some c → c.top_level = true →
      reachableThrough st c.pp_power_sets pk →
      (∀ ck' ∈ cks, ¬ ck' = ck → ∀ c', lookupK st.powerCats ck' = some c' →
        c'.top_level = true → ¬ reachableThrough st c'.pp_power_sets pk) →
      lookupK (cascadeIncludeTopLevel cks st).powers pk =
        (lookupK st.powers pk).map (cascPower c.archetypes)) := by
  constructor
  · intro st ck c hc htl
    obtain ⟨h1, _, h3, h4, _, _⟩ := cascadeStep_top_spec hc htl
    obtain ⟨c', hc', _, _, hinc, htop⟩ := h4
    exact ⟨h1, h3, ⟨c', hc', hinc, htop⟩⟩
  · intro cks st ck c pk hnd hmem hc htl hreach huniq
    exact cascade_unique_owner_aux hc htl hreach cks st hnd rfl
      (fun ck' h => rfl) huniq (Or.inl ⟨hmem, rfl⟩)

theorem c5_cascade_amended_witness :
    lookupK (cascadeStep c5St ("A")).powers ("P") =
      (lookupK c5St.powers ("P")).map (cascPower [0]) ∧
    lookupK (cascadeIncludeTopLevel [("A")] c5St).powers ("P") =
      (lookupK c5St.powers ("P")).map (cascPower [0]) := by
  have h := c5_cascade_amended
  constructor
  · exact (h.1 c5St ("A") _ rfl rfl).1 ("P")
      ⟨("SA"), List.mem_cons_self _ _, _, rfl, List.mem_cons_self _ _⟩
  · exact h.2 [("A")] c5St ("A") _ ("P") (by decide) (by decide) rfl rfl
      ⟨("SA"), List.mem_cons_self _ _, _, rfl, List.mem_cons_self _ _⟩
      (by
        intro ck' hck' hne c' hlk htl'
        simp only [List.mem_singleton] at hck'
        exact absurd hck' hne)

end PowersAPI
